import Mathlib

/-!
Verification development for the `amharic_text_processor` normalization
pipeline (`amharic_text_processor/processors/normalize.py`).

The three processors — `PunctuationNormalizer`, `UnicodeNormalizer` and
`CharacterRemapper` — are shallowly embedded below.  Python strings are
modelled as `List Char` (with `String` wrappers at the interface), the
regular-expression rewrites of the source are translated into explicit
recursive scans with the same leftmost/greedy semantics, and Python's
`str.translate` / `str.replace` become explicit lookup and substitution
functions.  Fallible library calls (`unicodedata.normalize` on an unknown
form name) are modelled with `Except`.
-/

namespace AmharicTextProcessor

/-! ### Character classes used by the punctuation stage

The source builds two regex character classes (`normalize.py` lines 43-44):
`punct_all = r"[?!.,;:።፣፤፥፦፧፨]"` and `punct_spacing = r"[?!,;:።፣፤፥፦፧፨]"`.
-/

/-- Membership in the source's `punct_all` character class
`[?!.,;:።፣፤፥፦፧፨]` (`normalize.py` line 43). -/
def punctAll (c : Char) : Bool :=
  c = '?' || c = '!' || c = '.' || c = ',' || c = ';' || c = ':' ||
  c = '።' || c = '፣' || c = '፤' || c = '፥' || c = '፦' || c = '፧' || c = '፨'

/-- Membership in the source's `punct_spacing` character class
`[?!,;:።፣፤፥፦፧፨]` (`normalize.py` line 44).  The source defines this class
but never uses it (the space-insertion rule was removed, see the comment at
line 47 of the source); it is embedded for completeness. -/
def punctSpacing (c : Char) : Bool :=
  c = '?' || c = '!' || c = ',' || c = ';' || c = ':' ||
  c = '።' || c = '፣' || c = '፤' || c = '፥' || c = '፦' || c = '፧' || c = '፨'

/-- Python's `\d` on `str` matches Unicode decimal digits; every digit in
this development is an ASCII digit, which is the fragment modelled here. -/
def pyDigit (c : Char) : Bool := c.isDigit

/-- Python's `\s` (and the default `str.strip`) whitespace class for `str`:
ASCII whitespace plus the Unicode whitespace code points. -/
def pySpace (c : Char) : Bool :=
  c = ' ' || c = '\t' || c = '\n' || c = '\x0d' || c = '\x0b' || c = '\x0c' ||
  (0x1c ≤ c.toNat && c.toNat ≤ 0x1f) || c.toNat = 0x85 || c.toNat = 0xa0 ||
  c.toNat = 0x1680 || (0x2000 ≤ c.toNat && c.toNat ≤ 0x200a) ||
  c.toNat = 0x2028 || c.toNat = 0x2029 || c.toNat = 0x202f ||
  c.toNat = 0x205f || c.toNat = 0x3000

/-! ### The punctuation translation table (`PUNCT_TRANSLATION`, lines 14-28) -/

/-- The `PunctuationNormalizer.PUNCT_TRANSLATION` table (`normalize.py`
lines 14-28), as an association list of (source char, replacement char). -/
def PUNCT_TRANSLATION : List (Char × Char) :=
  [('“', '"'), ('”', '"'), ('‘', '\''), ('’', '\''), ('，', ','),
   ('。', '.'), ('！', '!'), ('？', '?'), ('、', ','), ('；', ';'), ('：', ':')]

/-- Python's `str.translate` applied pointwise: a character that is a key of
the table is replaced by its value, any other character is unchanged. -/
def translateChar (table : List (Char × Char)) (c : Char) : Char :=
  match table.lookup c with
  | some d => d
  | none => c

/-- `text.translate(table)`: the pointwise map over the whole string. -/
def pyTranslate (table : List (Char × Char)) (s : List Char) : List Char :=
  s.map (translateChar table)

/-! ### Decimal protection (`normalize.py` lines 33-40, 49-50)

`re.sub(r"\d+\.\d+", _capture_decimal, text)` replaces each decimal literal
with the placeholder `__DECIMAL_{i}__` (`i` the 0-based match index) and
records the (token, original substring) pairs, which are later restored by
`str.replace` in order.
-/

/-- Decimal digit characters of `n` (most significant first), as produced by
Python's `f"{n}"`.  Implemented with an explicit fuel argument so that it
computes by kernel reduction; `natDigits` below supplies sufficient fuel. -/
def natDigitsAux : Nat → Nat → List Char → List Char
  | 0, n, acc => Char.ofNat (n % 10 + 48) :: acc
  | fuel + 1, n, acc =>
    if n < 10 then Char.ofNat (n + 48) :: acc
    else natDigitsAux fuel (n / 10) (Char.ofNat (n % 10 + 48) :: acc)

/-- Decimal representation of `n` as a character list (e.g. `natDigits 12 =
['1', '2']`). -/
def natDigits (n : Nat) : List Char := natDigitsAux n n []

/-- Decimal value of a digit string, inverse to `natDigits`; used to show
that distinct match indices yield distinct placeholder tokens. -/
def digitsVal (l : List Char) : Nat :=
  l.foldl (fun acc c => acc * 10 + (c.toNat - 48)) 0

/-- The placeholder token `__DECIMAL_{n}__` built by `_capture_decimal`
(`normalize.py` lines 36-38). -/
def decTok (n : Nat) : List Char :=
  '_' :: '_' :: 'D' :: 'E' :: 'C' :: 'I' :: 'M' :: 'A' :: 'L' :: '_' ::
    (natDigits n ++ ['_', '_'])

/-- One step of the left-to-right scan of `re.sub(r"\d+\.\d+", ...)`:
at a digit, read the maximal digit run `d1`; if it is followed by `'.'` and
at least one digit, the greedy match is `d1 ++ '.' ++ d2` with `d2` the
maximal digit run after the dot, and the scan resumes after the match.  When
the match attempt fails every start position inside `d1` (and at the dot)
fails for the same reason, so the scan resumes after the consumed prefix,
which is exactly what the regex engine does.  The `fuel` argument only
bounds the recursion; `captureDecimals` supplies `fuel = s.length`, which is
sufficient because every step consumes at least one character. -/
def captureAux : Nat → List Char → Nat →
    List Char × List (List Char × List Char)
  | _, [], _ => ([], [])
  | 0, s, _ => (s, [])
  | fuel + 1, c :: cs, n =>
    if pyDigit c then
      let d1 := (c :: cs).takeWhile pyDigit
      match (c :: cs).dropWhile pyDigit with
      | '.' :: r2 =>
        let d2 := r2.takeWhile pyDigit
        if d2.isEmpty then
          (d1 ++ '.' :: (captureAux fuel r2 n).1, (captureAux fuel r2 n).2)
        else
          (decTok n ++ (captureAux fuel (r2.dropWhile pyDigit) (n + 1)).1,
           (decTok n, d1 ++ '.' :: d2) ::
             (captureAux fuel (r2.dropWhile pyDigit) (n + 1)).2)
      | r1 => (d1 ++ (captureAux fuel r1 n).1, (captureAux fuel r1 n).2)
    else
      (c :: (captureAux fuel cs n).1, (captureAux fuel cs n).2)

/-- `protected = re.sub(r"\d+\.\d+", _capture_decimal, text)` together with
the recorded `decimals` list (`normalize.py` lines 33-40). -/
def captureDecimals (s : List Char) : List Char × List (List Char × List Char) :=
  captureAux s.length s 0

/-! ### Collapsing repeated punctuation (`normalize.py` line 46)

`re.sub(rf"({punct_all}){{2,}}", r"\1", normalized)`: every maximal run of
two or more `punct_all` characters is replaced by `\1`, and a capturing
group inside a quantifier holds the text of its *last* repetition, so the
run is replaced by its last character.  The scan below drops a punctuation
character whenever the next character is also punctuation, which keeps
exactly the last character of every maximal run and leaves isolated marks
(runs of length one, which the `{2,}` quantifier does not match) unchanged.
-/

/-- The repeated-punctuation collapse of `normalize.py` line 46. -/
def collapseRepeats : List Char → List Char
  | [] => []
  | [c] => [c]
  | c :: c2 :: cs =>
    if punctAll c && punctAll c2 then collapseRepeats (c2 :: cs)
    else c :: collapseRepeats (c2 :: cs)

/-! ### Restoring the protected decimals (`normalize.py` lines 49-50) -/

/-- Python's `str.replace(pat, rep)`: replace every non-overlapping
occurrence of `pat`, scanning left to right.  `pat` is never empty at the
call sites (placeholder tokens have length ≥ 13); the empty-pattern case
returns the string unchanged.  `fuel = s.length` is sufficient because each
step consumes at least one character of `s`. -/
def replaceAllAux (pat rep : List Char) : Nat → List Char → List Char
  | _, [] => []
  | 0, s => s
  | fuel + 1, c :: cs =>
    if pat ≠ [] && pat.isPrefixOf (c :: cs) then
      rep ++ replaceAllAux pat rep fuel ((c :: cs).drop pat.length)
    else
      c :: replaceAllAux pat rep fuel cs

/-- `s.replace(pat, rep)` for list-of-character strings. -/
def replaceAll (s pat rep : List Char) : List Char :=
  replaceAllAux pat rep s.length s

/-- The restore loop `for token, value in decimals: normalized =
normalized.replace(token, value)` (`normalize.py` lines 49-50). -/
def restoreDecimals (ds : List (List Char × List Char)) (s : List Char) :
    List Char :=
  ds.foldl (fun acc tv => replaceAll acc tv.1 tv.2) s

/-! ### Whitespace normalization (`normalize.py` line 51) -/

/-- `re.sub(r"\s+", " ", normalized)`: every maximal run of whitespace
characters becomes a single space.  As with `collapseRepeats`, dropping a
whitespace character whenever the next one is also whitespace keeps one
position per run, which is then rewritten to `' '`. -/
def collapseWhitespace : List Char → List Char
  | [] => []
  | [c] => if pySpace c then [' '] else [c]
  | c :: c2 :: cs =>
    if pySpace c && pySpace c2 then collapseWhitespace (c2 :: cs)
    else (if pySpace c then ' ' else c) :: collapseWhitespace (c2 :: cs)

/-- Python's `str.strip()`: remove leading and trailing whitespace. -/
def pyStrip (s : List Char) : List Char :=
  ((s.dropWhile pySpace).reverse.dropWhile pySpace).reverse

/-! ### The input/output shapes (`amharic_text_processor/base.py`, spec §3) -/

/-- Modelled from the spec: `ProcessorInput` (declared in
`amharic_text_processor/base.py`, which is not among the provided sources)
is "either a raw text string, or a structured record containing a `text`
field" (spec §3). -/
inductive ProcessorInput where
  | raw (s : String)
  | record (text : String)

/-- Modelled from the spec: `BaseProcessor._extract_text` (defined in
`amharic_text_processor/base.py`, which is not among the provided sources)
follows §3: "if the input carries a `text` field, use it; otherwise treat
the whole input as the text". -/
def extractText : ProcessorInput → String
  | .raw s => s
  | .record t => t

/-- Output record of `PunctuationNormalizer.apply` (`normalize.py` line 52):
`{"text": normalized, "punctuation_normalized": normalized != text}`. -/
structure PunctOutput where
  text : String
  punctuation_normalized : Bool
  deriving DecidableEq, Repr

/-- Output record of `UnicodeNormalizer.apply` (`normalize.py` line 67). -/
structure UnicodeOutput where
  text : String
  unicode_normalized : Bool
  deriving DecidableEq, Repr

/-- Output record of `CharacterRemapper.apply` (`normalize.py` line 153). -/
structure RemapOutput where
  text : String
  characters_remapped : Bool
  deriving DecidableEq, Repr

/-! ### `PunctuationNormalizer.apply` (`normalize.py` lines 30-52) -/

namespace PunctuationNormalizer

/-- The text transformation performed by `PunctuationNormalizer.apply`
(`normalize.py` lines 30-51): protect decimals, translate punctuation
variants, collapse repeated punctuation, restore the decimals, then
collapse whitespace runs and strip. -/
def applyList (text : List Char) : List Char :=
  let pd := captureDecimals text
  let translated := pyTranslate PUNCT_TRANSLATION pd.1
  let collapsed := collapseRepeats translated
  let restored := restoreDecimals pd.2 collapsed
  pyStrip (collapseWhitespace restored)

/-- `PunctuationNormalizer.apply` on the extracted text, as a `String`
transformation. -/
def applyText (s : String) : String := ⟨applyList s.data⟩

/-- `PunctuationNormalizer.apply` (`normalize.py` lines 30-52): the
transformed text together with the flag `normalized != text`. -/
def apply (data : ProcessorInput) : PunctOutput :=
  ⟨applyText (extractText data), applyText (extractText data) != extractText data⟩

end PunctuationNormalizer

/-! ### `CharacterRemapper` (`normalize.py` lines 70-153) -/

namespace CharacterRemapper

/-- The `CharacterRemapper.REMAP` table (`normalize.py` lines 74-125). -/
def REMAP : List (Char × Char) :=
  [('ሠ', 'ሰ'), ('ሡ', 'ሱ'), ('ሢ', 'ሲ'), ('ሣ', 'ሳ'), ('ሤ', 'ሴ'),
   ('ሥ', 'ስ'), ('ሦ', 'ሶ'), ('ሧ', 'ሷ'), ('ሐ', 'ሀ'), ('ሑ', 'ሁ'),
   ('ሒ', 'ሂ'), ('ሓ', 'ሀ'), ('ሔ', 'ሄ'), ('ሕ', 'ህ'), ('ሖ', 'ሆ'),
   ('ሃ', 'ሀ'), ('ኀ', 'ሀ'), ('ኁ', 'ሁ'), ('ኂ', 'ሂ'), ('ኃ', 'ሀ'),
   ('ኄ', 'ሄ'), ('ኅ', 'ህ'), ('ኆ', 'ሆ'), ('ኊ', 'ሂ'), ('ኋ', 'ሀ'),
   ('ኌ', 'ሄ'), ('ኍ', 'ህ'), ('ኾ', 'ሆ'), ('ፀ', 'ጸ'), ('ፁ', 'ጹ'),
   ('ፂ', 'ጺ'), ('ፃ', 'ጻ'), ('ፄ', 'ጼ'), ('ፅ', 'ጽ'), ('ፆ', 'ጾ'),
   ('ፇ', 'ጿ'), ('ዯ', 'ዮ'), ('ዐ', 'አ'), ('ዑ', 'ኡ'), ('ዒ', 'ኢ'),
   ('ዓ', 'አ'), ('ዔ', 'ኤ'), ('ዕ', 'እ'), ('ዖ', 'ኦ'), ('ጎ', 'ጐ'),
   ('ኰ', 'ኮ'), ('ቊ', 'ቁ'), ('ኵ', 'ኩ'), ('ዉ', 'ው')]

/-- One ligature substitution `re.sub(r"(X[ዋአ])", L, remapped)`
(`normalize.py` lines 133-152): every occurrence of the base glyph followed
by one of the two vowel triggers is replaced by the single labialized
glyph.  Matches are non-overlapping and scanned left to right. -/
def ligSub (base target : Char) : List Char → List Char
  | [] => []
  | [c] => [c]
  | c :: c2 :: cs =>
    if c = base && (c2 = 'ዋ' || c2 = 'አ') then target :: ligSub base target cs
    else c :: ligSub base target (c2 :: cs)

/-- The ordered list of ligature rules applied by `CharacterRemapper.apply`
(`normalize.py` lines 133-152), as (base glyph, labialized glyph) pairs;
each rule fires on the base followed by `ዋ` or `አ`. -/
def LIG_RULES : List (Char × Char) :=
  [('ሉ', 'ሏ'), ('ሙ', 'ሟ'), ('ቱ', 'ቷ'), ('ሩ', 'ሯ'), ('ሱ', 'ሷ'),
   ('ሹ', 'ሿ'), ('ቁ', 'ቋ'), ('ቡ', 'ቧ'), ('ቹ', 'ቿ'), ('ሁ', 'ኋ'),
   ('ኑ', 'ኗ'), ('ኙ', 'ኟ'), ('ኩ', 'ኳ'), ('ዙ', 'ዟ'), ('ጉ', 'ጓ'),
   ('ደ', 'ዷ'), ('ጡ', 'ጧ'), ('ጩ', 'ጯ'), ('ጹ', 'ጿ'), ('ፉ', 'ፏ')]

/-- The text transformation of `CharacterRemapper.apply` (`normalize.py`
lines 129-152): the `REMAP` translation table followed by the twenty
ligature substitutions, in source order. -/
def applyList (text : List Char) : List Char :=
  LIG_RULES.foldl (fun acc bt => ligSub bt.1 bt.2 acc) (pyTranslate REMAP text)

/-- `CharacterRemapper.apply` on the extracted text, as a `String`
transformation. -/
def applyText (s : String) : String := ⟨applyList s.data⟩

/-- `CharacterRemapper.apply` (`normalize.py` lines 129-153): the
transformed text together with the flag `remapped != text`. -/
def apply (data : ProcessorInput) : RemapOutput :=
  ⟨applyText (extractText data), applyText (extractText data) != extractText data⟩

end CharacterRemapper

/-! ### `UnicodeNormalizer` (`normalize.py` lines 55-67)

`apply` calls `unicodedata.normalize(self.form, text)` and, when
`strip_control` is set, removes every character whose Unicode general
category starts with "C".  The Python library functions are modelled on the
fragment of the Unicode character database that the theorems below touch:

* canonical data: `U+00E1 á` canonically decomposes to `U+0061 U+0301`, and
  `U+0301` has canonical combining class 230; every other character of this
  development has no canonical decomposition and combining class 0 (true of
  ASCII, Ethiopic, general punctuation and the CJK/fullwidth marks);
* compatibility data: the fullwidth marks `，！？；：` decompose to their
  ASCII counterparts under NFKD/NFKC (not used by any theorem);
* `unicodedata.normalize` raises `ValueError` on any form name other than
  `"NFC"`, `"NFKC"`, `"NFD"`, `"NFKD"`; that error is modelled with
  `Except`.

The composition pass is the standard canonical composition algorithm: a
combining character composes with the last starter unless a character with
a combining class that is zero or not smaller stands between them.
-/

/-- Canonical combining class of the characters of this development:
`U+0301 COMBINING ACUTE ACCENT` has class 230, all others class 0. -/
def ccc (c : Char) : Nat := if c = '́' then 230 else 0

/-- Canonical decomposition fragment: `á = U+00E1` decomposes to
`a U+0301`; the other characters appearing in this development have no
canonical decomposition. -/
def canonDecomp (c : Char) : Option (List Char) :=
  if c = 'á' then some ['a', '́'] else none

/-- Compatibility decompositions of the fullwidth punctuation marks used in
the source's translation table. -/
def compatDecomp (c : Char) : Option (List Char) :=
  if c = '，' then some [','] else if c = '！' then some ['!']
  else if c = '？' then some ['?'] else if c = '；' then some [';']
  else if c = '：' then some [':'] else none

/-- Primary composite fragment: `a` + `U+0301` composes to `á`. -/
def primaryComposite (starter c : Char) : Option Char :=
  if starter = 'a' && c = '́' then some 'á' else none

/-- Recursive decomposition of one character (the fragment's decomposition
mappings are already fully decomposed, so one level suffices; the recursion
is kept for the shape of the algorithm and terminates on the fragment). -/
def decompChar (useCompat : Bool) (c : Char) : List Char :=
  match canonDecomp c with
  | some l => l
  | none =>
    if useCompat then
      match compatDecomp c with
      | some l => l
      | none => [c]
    else [c]

/-- Decomposition pass of the normalization algorithm. -/
def decompose (useCompat : Bool) (s : List Char) : List Char :=
  s.flatMap (decompChar useCompat)

/-- Insert a combining character into an already canonically ordered run,
moving it past characters of strictly greater combining class (the stable
bubble of the Canonical Ordering Algorithm). -/
def insertCombining (c : Char) : List Char → List Char
  | [] => [c]
  | d :: ds =>
    if ccc d > ccc c && ccc c > 0 then d :: insertCombining c ds
    else c :: d :: ds

/-- Canonical Ordering Algorithm: stable-sort every maximal run of
characters with non-zero combining class by combining class. -/
def canonicalOrder : List Char → List Char
  | [] => []
  | c :: cs =>
    if ccc c = 0 then c :: canonicalOrder cs
    else insertCombining c (canonicalOrder cs)

/-- Canonical Composition Algorithm, processing the run that follows the
current starter `st`.  `lastCC` is the combining class of the last
non-composed combining character seen since the starter (0 when none has
been seen); a combining character is blocked when `lastCC` is not smaller
than its class.  `pending` holds the non-composed combining characters seen
so far, most recent first.  (The real algorithm also tries to compose two
adjacent starters, which matters only for Hangul and similar data outside
the modelled fragment.) -/
def composeRun (st : Char) (lastCC : Nat) (pending : List Char) :
    List Char → List Char
  | [] => st :: pending.reverse
  | c :: cs =>
    if ccc c = 0 then
      (st :: pending.reverse) ++ composeRun c 0 [] cs
    else
      match primaryComposite st c with
      | some comp =>
        if lastCC = 0 || lastCC < ccc c then composeRun comp lastCC pending cs
        else composeRun st (ccc c) (c :: pending) cs
      | none => composeRun st (ccc c) (c :: pending) cs

/-- Composition pass over a fully decomposed, canonically ordered string.
Combining characters preceding the first starter cannot compose and are
emitted unchanged. -/
def compose : List Char → List Char
  | [] => []
  | c :: cs => if ccc c = 0 then composeRun c 0 [] cs else c :: compose cs

/-- `unicodedata.normalize("NFD", s)` on the modelled fragment. -/
def nfd (s : List Char) : List Char := canonicalOrder (decompose false s)

/-- `unicodedata.normalize("NFC", s)` on the modelled fragment. -/
def nfc (s : List Char) : List Char := compose (canonicalOrder (decompose false s))

/-- `unicodedata.normalize("NFKD", s)` on the modelled fragment. -/
def nfkd (s : List Char) : List Char := canonicalOrder (decompose true s)

/-- `unicodedata.normalize("NFKC", s)` on the modelled fragment. -/
def nfkc (s : List Char) : List Char := compose (canonicalOrder (decompose true s))

/-- `unicodedata.normalize(form, s)`: dispatches on the four valid form
names and raises `ValueError("invalid normalization form")` on any other
value, exactly as the Python library does — in particular the form name is
only examined here, during `apply`, never at construction time. -/
def pyUnicodedataNormalize (form : String) (s : List Char) :
    Except String (List Char) :=
  if form = "NFC" then .ok (nfc s)
  else if form = "NFD" then .ok (nfd s)
  else if form = "NFKC" then .ok (nfkc s)
  else if form = "NFKD" then .ok (nfkd s)
  else .error "invalid normalization form"

/-- Whether `unicodedata.category(c)` starts with `"C"` on the modelled
fragment of the Unicode general-category data: `Cc` (the two control
ranges), the `Cf` format characters, and the `Co` private-use ranges.
(`Cs` surrogates are not representable as `Char`; the unassigned category
`Cn` is not modelled — no character of this development is unassigned.) -/
def isCategoryC (c : Char) : Bool :=
  c.toNat < 0x20 || (0x7f ≤ c.toNat && c.toNat ≤ 0x9f) ||
  c.toNat = 0xad || (0x600 ≤ c.toNat && c.toNat ≤ 0x605) ||
  c.toNat = 0x61c || c.toNat = 0x6dd || c.toNat = 0x70f || c.toNat = 0x8e2 ||
  c.toNat = 0x180e || (0x200b ≤ c.toNat && c.toNat ≤ 0x200f) ||
  (0x202a ≤ c.toNat && c.toNat ≤ 0x202e) ||
  (0x2060 ≤ c.toNat && c.toNat ≤ 0x2064) ||
  (0x2066 ≤ c.toNat && c.toNat ≤ 0x206f) ||
  c.toNat = 0xfeff || (0xfff9 ≤ c.toNat && c.toNat ≤ 0xfffb) ||
  (0xe000 ≤ c.toNat && c.toNat ≤ 0xf8ff) ||
  (0xf0000 ≤ c.toNat && c.toNat ≤ 0xffffd) ||
  (0x100000 ≤ c.toNat && c.toNat ≤ 0x10fffd)

/-- The `UnicodeNormalizer` object: `__init__` (`normalize.py` lines 58-60)
stores the two configuration values without any validation, so constructing
the object never fails, whatever the `form` string is. -/
structure UnicodeNormalizer where
  form : String := "NFC"
  strip_control : Bool := true
  deriving DecidableEq, Repr

namespace UnicodeNormalizer

/-- The text transformation (and possible `ValueError`) of
`UnicodeNormalizer.apply` (`normalize.py` lines 62-66): normalize to the
configured form, then optionally remove every character whose general
category starts with "C". -/
def applyListE (u : UnicodeNormalizer) (text : List Char) :
    Except String (List Char) :=
  match pyUnicodedataNormalize u.form text with
  | .error e => .error e
  | .ok normalized =>
    .ok (if u.strip_control then normalized.filter (fun ch => !isCategoryC ch)
         else normalized)

/-- `UnicodeNormalizer.apply` on the extracted text. -/
def applyTextE (u : UnicodeNormalizer) (s : String) :
    Except String UnicodeOutput :=
  match u.applyListE s.data with
  | .error e => .error e
  | .ok normalized => .ok ⟨⟨normalized⟩, (⟨normalized⟩ : String) != s⟩

/-- `UnicodeNormalizer.apply` (`normalize.py` lines 62-67). -/
def apply (u : UnicodeNormalizer) (data : ProcessorInput) :
    Except String UnicodeOutput :=
  u.applyTextE (extractText data)

end UnicodeNormalizer

/-! ### Auxiliary predicates used by the claims -/

/-- Whether the string starts with an instance of the placeholder pattern
`__DECIMAL_<n>__` (the reserved token shape of `_capture_decimal`): the
literal prefix `__DECIMAL_`, then at least one digit, then `__`. -/
def placeholderAt (s : List Char) : Bool :=
  ['_', '_', 'D', 'E', 'C', 'I', 'M', 'A', 'L', '_'].isPrefixOf s &&
  !((s.drop 10).takeWhile Char.isDigit).isEmpty &&
  ['_', '_'].isPrefixOf ((s.drop 10).dropWhile Char.isDigit)

/-- Whether the placeholder pattern `__DECIMAL_<n>__` occurs anywhere in the
string. -/
def hasPlaceholder : List Char → Bool
  | [] => false
  | c :: cs => placeholderAt (c :: cs) || hasPlaceholder cs

/-! ### The protection invariant

`Clean lo hi t` describes the shape of the working string between the
decimal-protection pass and the restore loop, for an input that contains no
underscore: the string is a concatenation of ordinary characters (never
`'_'`) and whole placeholder tokens whose indices lie in `[lo, hi)`.  The
restore loop consumes the token indices in increasing order, so after
restoring token `lo` the remaining string is `Clean (lo+1) hi`; when
`lo = hi`, no token can occur and the string is underscore-free. -/
inductive Clean : Nat → Nat → List Char → Prop where
  | nil {lo hi : Nat} : Clean lo hi []
  | chr {lo hi : Nat} {c : Char} {t : List Char} :
      c ≠ '_' → Clean lo hi t → Clean lo hi (c :: t)
  | tok {lo hi m : Nat} {t : List Char} :
      lo ≤ m → m < hi → Clean lo hi t → Clean lo hi (decTok m ++ t)

/-- The list of (token, value) pairs recorded by `_capture_decimal`:
consecutive token indices starting at `n`, each value of the matched shape
`digits '.' digits` with both digit runs non-empty. -/
inductive DsFrom : Nat → List (List Char × List Char) → Prop where
  | nil {n : Nat} : DsFrom n []
  | cons {n : Nat} {d1 d2 : List Char} {ds : List (List Char × List Char)} :
      d1 ≠ [] → d2 ≠ [] → (∀ c ∈ d1, c.isDigit = true) →
      (∀ c ∈ d2, c.isDigit = true) → DsFrom (n + 1) ds →
      DsFrom n ((decTok n, d1 ++ '.' :: d2) :: ds)

/-- No two adjacent characters are both members of the `punct_all` class:
the shape of a string in which the repeated-punctuation collapse finds
nothing to do. -/
def PunctSep (l : List Char) : Prop :=
  l.Chain' (fun a b => ¬(punctAll a = true ∧ punctAll b = true))

/-- No two adjacent characters are both whitespace. -/
def SpaceSep (l : List Char) : Prop :=
  l.Chain' (fun a b => ¬(pySpace a = true ∧ pySpace b = true))

/-- Every whitespace character is a plain space. -/
def SpacesOnly (l : List Char) : Prop := ∀ c ∈ l, pySpace c = true → c = ' '

/-- No character is a key of the punctuation translation table. -/
def Untranslatable (l : List Char) : Prop :=
  ∀ c ∈ l, List.lookup c PUNCT_TRANSLATION = none

/-! ### General lemmas -/

/-! #### Digit strings -/

/-- Appending to the accumulator of `natDigitsAux` appends to its output. -/
theorem natDigitsAux_acc (f : Nat) : ∀ (n : Nat) (acc : List Char),
    natDigitsAux f n acc = natDigitsAux f n [] ++ acc := by
  induction f with
  | zero => intro n acc; simp [natDigitsAux]
  | succ f ih =>
    intro n acc
    by_cases h : n < 10
    · simp [natDigitsAux, h]
    · rw [natDigitsAux, natDigitsAux, if_neg h, if_neg h,
        ih (n / 10) (Char.ofNat (n % 10 + 48) :: acc),
        ih (n / 10) (Char.ofNat (n % 10 + 48) :: [])]
      simp

/-- A character `Char.ofNat (k + 48)` with `k < 10` is an ASCII digit. -/
theorem ofNat_digit_isDigit (k : Nat) (h : k < 10) :
    (Char.ofNat (k + 48)).isDigit = true := by
  interval_cases k <;> decide

/-- Every character of `natDigits n` is an ASCII digit. -/
theorem natDigits_all_digit (n : Nat) : ∀ c ∈ natDigits n, c.isDigit = true := by
  suffices h : ∀ (f m : Nat) (acc : List Char), (∀ c ∈ acc, c.isDigit = true) →
      ∀ c ∈ natDigitsAux f m acc, c.isDigit = true from
    h n n [] (by simp)
  intro f
  induction f with
  | zero =>
    intro m acc hacc c hc
    rw [natDigitsAux] at hc
    rcases List.mem_cons.mp hc with h | h
    · subst h; exact ofNat_digit_isDigit _ (Nat.mod_lt _ (by omega))
    · exact hacc c h
  | succ f ih =>
    intro m acc hacc c hc
    rw [natDigitsAux] at hc
    by_cases hm : m < 10
    · rw [if_pos hm] at hc
      rcases List.mem_cons.mp hc with h | h
      · subst h; exact ofNat_digit_isDigit _ hm
      · exact hacc c h
    · rw [if_neg hm] at hc
      refine ih (m / 10) _ ?_ c hc
      intro d hd
      rcases List.mem_cons.mp hd with h | h
      · subst h; exact ofNat_digit_isDigit _ (Nat.mod_lt _ (by omega))
      · exact hacc d h

/-- `natDigits` never returns the empty string. -/
theorem natDigits_ne_nil (n : Nat) : natDigits n ≠ [] := by
  suffices h : ∀ (f m : Nat) (acc : List Char),
      acc.length < (natDigitsAux f m acc).length by
    intro hc
    have := h n n []
    rw [natDigits] at hc
    simp [hc] at this
  intro f
  induction f with
  | zero => intro m acc; simp [natDigitsAux]
  | succ f ih =>
    intro m acc
    by_cases hm : m < 10
    · simp [natDigitsAux, hm]
    · rw [natDigitsAux, if_neg hm]
      calc acc.length < (Char.ofNat (m % 10 + 48) :: acc).length := by simp
        _ < _ := ih (m / 10) _

/-- An ASCII digit is not an underscore. -/
theorem isDigit_ne_underscore {c : Char} (h : c.isDigit = true) : c ≠ '_' := by
  intro hc; subst hc; simp at h

/-- An ASCII digit is not a member of the `punct_all` class. -/
theorem isDigit_not_punct {c : Char} (h : c.isDigit = true) :
    punctAll c = false := by
  by_contra hp
  simp only [Bool.not_eq_false, punctAll, Bool.or_eq_true, decide_eq_true_eq]
    at hp
  rcases hp with ((((((((((((h1 | h1) | h1) | h1) | h1) | h1) | h1) | h1) |
    h1) | h1) | h1) | h1) | h1) <;> (subst h1; simp at h)

/-- `digitsVal` inverts `natDigits`. -/
theorem digitsVal_natDigits (n : Nat) : digitsVal (natDigits n) = n := by
  suffices h : ∀ (f m : Nat), m ≤ f → digitsVal (natDigitsAux f m []) = m from
    h n n (Nat.le_refl n)
  intro f
  induction f with
  | zero =>
    intro m hm
    interval_cases m
    decide
  | succ f ih =>
    intro m hm
    by_cases h10 : m < 10
    · rw [natDigitsAux, if_pos h10]
      interval_cases m <;> decide
    · rw [natDigitsAux, if_neg h10, natDigitsAux_acc]
      have hdiv : m / 10 ≤ f := by
        have := Nat.div_lt_self (by omega : 0 < m) (by omega : 1 < 10)
        omega
      have hmod : (Char.ofNat (m % 10 + 48)).toNat - 48 = m % 10 := by
        have hlt : m % 10 < 10 := Nat.mod_lt _ (by omega)
        generalize hk : m % 10 = k at *
        interval_cases k <;> decide
      have hih := ih (m / 10) hdiv
      simp only [digitsVal] at hih ⊢
      rw [List.foldl_append, hih]
      simp only [List.foldl_cons, List.foldl_nil, hmod]
      omega

/-- Distinct indices have distinct digit strings. -/
theorem natDigits_inj {a b : Nat} (h : natDigits a = natDigits b) : a = b := by
  have ha := digitsVal_natDigits a
  rw [h, digitsVal_natDigits] at ha
  omega

/-! #### Equations for `replaceAll` -/

/-- The result of `replaceAllAux` does not depend on the fuel, as long as
the fuel covers the length of the string. -/
theorem replaceAllAux_fuel (pat rep : List Char) :
    ∀ (f₁ f₂ : Nat) (s : List Char), s.length ≤ f₁ → s.length ≤ f₂ →
    replaceAllAux pat rep f₁ s = replaceAllAux pat rep f₂ s := by
  intro f₁
  induction f₁ with
  | zero =>
    intro f₂ s h1 h2
    have : s = [] := List.length_eq_zero.mp (Nat.le_zero.mp h1)
    subst this
    cases f₂ <;> rfl
  | succ f ih =>
    intro f₂ s h1 h2
    cases s with
    | nil => cases f₂ <;> rfl
    | cons c cs =>
      cases f₂ with
      | zero => simp at h2
      | succ g =>
        rw [replaceAllAux, replaceAllAux]
        by_cases hcond : (pat ≠ [] && pat.isPrefixOf (c :: cs)) = true
        · rw [if_pos hcond, if_pos hcond]
          have hpat : 1 ≤ pat.length := by
            cases pat with
            | nil => simp at hcond
            | cons p ps => simp
          have hlen : ((c :: cs).drop pat.length).length ≤ f := by
            simp only [List.length_drop, List.length_cons] at *
            omega
          have hlen2 : ((c :: cs).drop pat.length).length ≤ g := by
            simp only [List.length_drop, List.length_cons] at *
            omega
          rw [ih _ _ hlen hlen2]
        · rw [if_neg hcond, if_neg hcond]
          have hf : cs.length ≤ f := by simp at h1; omega
          have hg : cs.length ≤ g := by simp at h2; omega
          rw [ih _ _ hf hg]

/-- Step equation of `replaceAll` when no occurrence starts here. -/
theorem replaceAll_cons_neg {pat : List Char} {c : Char} {cs rep : List Char}
    (h : (pat ≠ [] && pat.isPrefixOf (c :: cs)) = false) :
    replaceAll (c :: cs) pat rep = c :: replaceAll cs pat rep := by
  have hneg : ¬ ((pat ≠ [] && pat.isPrefixOf (c :: cs)) = true) := by
    rw [h]; simp
  rw [replaceAll, replaceAll, List.length_cons, replaceAllAux, if_neg hneg]

/-- Step equation of `replaceAll` at an occurrence of the pattern. -/
theorem replaceAll_pref {pat rest rep : List Char} (hp : pat ≠ []) :
    replaceAll (pat ++ rest) pat rep = rep ++ replaceAll rest pat rep := by
  obtain ⟨p, ps, rfl⟩ : ∃ p ps, pat = p :: ps := by
    cases pat with
    | nil => exact absurd rfl hp
    | cons p ps => exact ⟨p, ps, rfl⟩
  rw [replaceAll, List.cons_append, List.length_cons, replaceAllAux]
  have hpre : ((p :: ps).isPrefixOf (p :: (ps ++ rest))) = true :=
    List.isPrefixOf_iff_prefix.mpr
      (by rw [← List.cons_append]; exact List.prefix_append _ _)
  rw [if_pos (by simp [hpre])]
  have hdrop : (p :: (ps ++ rest)).drop (p :: ps).length = rest := by
    rw [← List.cons_append]
    exact List.drop_left _ _
  rw [hdrop, replaceAll]
  congr 1
  apply replaceAllAux_fuel
  · simp
  · exact Nat.le_refl _

/-- `replaceAll` passes over a segment that cannot contain the head of the
pattern. -/
theorem replaceAll_append_of_head_notMem {pat rep : List Char} {h₀ : Char}
    (hh : pat.head? = some h₀) :
    ∀ (a b : List Char), (∀ c ∈ a, c ≠ h₀) →
    replaceAll (a ++ b) pat rep = a ++ replaceAll b pat rep := by
  obtain ⟨p, ps, rfl⟩ : ∃ p ps, pat = p :: ps := by
    cases pat with
    | nil => simp at hh
    | cons p ps => exact ⟨p, ps, rfl⟩
  have hp0 : p = h₀ := by simpa using hh
  subst hp0
  intro a
  induction a with
  | nil => intro b _; simp
  | cons c a' ih =>
    intro b ha
    have hc : c ≠ p := ha c (by simp)
    have hpre : ((p :: ps).isPrefixOf (c :: (a' ++ b))) = false := by
      have hbeq : (p == c) = false := by
        simp only [beq_eq_false_iff_ne, ne_eq]
        exact fun h => hc h.symm
      simp [List.isPrefixOf, hbeq]
    rw [List.cons_append, replaceAll_cons_neg (by simp [hpre]),
      ih b (fun x hx => ha x (List.mem_cons_of_mem _ hx))]
    rfl

/-! #### Occurrence analysis for placeholder tokens

Inside a `Clean` string, the only occurrences of `decTok n` are the token
chunks with index `n`: an occurrence cannot start inside another token or
inside an ordinary-character segment.  The lemmas below follow the
left-to-right scan of `str.replace` through a token with a different index
and show that no replacement fires there.
-/

/-- Two digit strings followed by an underscore delimiter can only align
when they are equal. -/
theorem digits_underscore_align :
    ∀ (a b xs ys : List Char), (∀ c ∈ a, c.isDigit = true) →
    (∀ c ∈ b, c.isDigit = true) →
    (a ++ '_' :: xs) <+: (b ++ '_' :: ys) → a = b := by
  intro a
  induction a with
  | nil =>
    intro b xs ys _ hb h
    cases b with
    | nil => rfl
    | cons d b' =>
      rw [List.nil_append, List.cons_append, List.cons_prefix_cons] at h
      have : d.isDigit = true := hb d (by simp)
      rw [← h.1] at this
      simp at this
  | cons c a' ih =>
    intro b xs ys ha hb h
    cases b with
    | nil =>
      rw [List.cons_append, List.nil_append, List.cons_prefix_cons] at h
      have : c.isDigit = true := ha c (by simp)
      rw [h.1] at this
      simp at this
    | cons d b' =>
      rw [List.cons_append, List.cons_append, List.cons_prefix_cons] at h
      have heq := h.1
      subst heq
      rw [ih b' xs ys (fun x hx => ha x (List.mem_cons_of_mem _ hx))
        (fun x hx => hb x (List.mem_cons_of_mem _ hx)) h.2]

/-- A token with index `n` is not a prefix of a token with a different
index `m` (whatever follows it). -/
theorem decTok_not_prefix_of_ne {n m : Nat} (hnm : n ≠ m) (t : List Char) :
    (decTok n).isPrefixOf (decTok m ++ t) = false := by
  by_contra hcon
  have hpre : decTok n <+: decTok m ++ t := by
    refine List.isPrefixOf_iff_prefix.mp ?_
    cases hb : (decTok n).isPrefixOf (decTok m ++ t) with
    | false => exact absurd hb hcon
    | true => rfl
  rw [decTok, decTok] at hpre
  simp only [List.cons_append, List.cons_prefix_cons, true_and] at hpre
  have hshape : (natDigits m ++ ['_', '_']) ++ t = natDigits m ++ '_' :: '_' :: t := by
    simp
  rw [hshape] at hpre
  have hdig : natDigits n ++ ['_', '_'] = natDigits n ++ '_' :: ['_'] := by simp
  rw [hdig] at hpre
  exact hnm (natDigits_inj (digits_underscore_align _ _ _ _
    (natDigits_all_digit n) (natDigits_all_digit m) hpre))

/-- Scanning forward inside a `Clean` string, a pattern consisting of
non-underscore characters, then an underscore, then a digit string cannot
match: the underscore must align with a token start, whose next character
is again an underscore, not a digit. -/
theorem no_mixed_match {lo hi nn : Nat} {ys : List Char} :
    ∀ (t : List Char), Clean lo hi t → ∀ (w : List Char), (∀ c ∈ w, c ≠ '_') →
    ((w ++ '_' :: (natDigits nn ++ ys)).isPrefixOf t) = false := by
  intro t hc
  induction hc with
  | nil =>
    intro w hw
    cases w with
    | nil => rfl
    | cons a w' => rfl
  | chr hne hct ih =>
    intro w hw
    rename_i c t'
    cases w with
    | nil =>
      have : ('_' == c) = false := by
        simp only [beq_eq_false_iff_ne, ne_eq]
        exact fun h => hne h.symm
      simp [List.isPrefixOf, this]
    | cons a w' =>
      by_cases hac : a = c
      · subst hac
        rw [List.cons_append]
        show ((a == a) && (w' ++ '_' :: (natDigits nn ++ ys)).isPrefixOf t') = false
        rw [ih w' (fun x hx => hw x (List.mem_cons_of_mem _ hx))]
        simp
      · have : (a == c) = false := by simpa using hac
        rw [List.cons_append]
        show ((a == c) && (w' ++ '_' :: (natDigits nn ++ ys)).isPrefixOf t') = false
        rw [this]
        simp
  | tok hlom hmhi hct ih =>
    intro w hw
    rename_i m t'
    cases w with
    | nil =>
      obtain ⟨d, ds, hnd⟩ : ∃ d ds, natDigits nn = d :: ds := by
        cases hd : natDigits nn with
        | nil => exact absurd hd (natDigits_ne_nil nn)
        | cons d ds => exact ⟨d, ds, rfl⟩
      have hd : d.isDigit = true := natDigits_all_digit nn d (by rw [hnd]; simp)
      have hdu : (d == '_') = false := by
        simp only [beq_eq_false_iff_ne, ne_eq]
        exact isDigit_ne_underscore hd
      rw [decTok, hnd]
      simp [List.isPrefixOf, hdu]
    | cons a w' =>
      have hau : (a == '_') = false := by
        simp only [beq_eq_false_iff_ne, ne_eq]
        exact hw a (by simp)
      rw [decTok]
      simp [List.isPrefixOf, hau]

/-- A full placeholder token does not match starting at the final
underscore of another token. -/
theorem decTok_not_prefix_after_underscore {lo hi n : Nat} {t : List Char}
    (hc : Clean lo hi t) : (decTok n).isPrefixOf ('_' :: t) = false := by
  rw [decTok]
  show (('_' == '_') &&
    (('_' :: 'D' :: 'E' :: 'C' :: 'I' :: 'M' :: 'A' :: 'L' :: '_' ::
      (natDigits n ++ ['_', '_'])).isPrefixOf t)) = false
  cases hc with
  | nil => rfl
  | chr hne hct =>
    rename_i c t'
    have : ('_' == c) = false := by
      simp only [beq_eq_false_iff_ne, ne_eq]
      exact fun h => hne h.symm
    simp [List.isPrefixOf, this]
  | tok hlom hmhi hct =>
    rw [decTok]
    simp [List.isPrefixOf]

/-- `str.replace` passes over a whole placeholder token with a different
index without firing: no occurrence of `decTok n` starts inside
`decTok m` when `n ≠ m` and the rest of the string is `Clean`. -/
theorem replaceAll_skip_tok {lo hi n m : Nat} {t v : List Char} (hnm : n ≠ m)
    (hc : Clean lo hi t) :
    replaceAll (decTok m ++ t) (decTok n) v =
      decTok m ++ replaceAll t (decTok n) v := by
  have hhead : (decTok n).head? = some '_' := by rw [decTok]; rfl
  obtain ⟨d, ds, hnd⟩ : ∃ d ds, natDigits m = d :: ds := by
    cases hd : natDigits m with
    | nil => exact absurd hd (natDigits_ne_nil m)
    | cons d ds => exact ⟨d, ds, rfl⟩
  have hdu : ('_' == d) = false := by
    simp only [beq_eq_false_iff_ne, ne_eq]
    exact fun h =>
      isDigit_ne_underscore (natDigits_all_digit m d (by rw [hnd]; simp)) h.symm
  have hshape : decTok m ++ t =
      '_' :: '_' :: 'D' :: 'E' :: 'C' :: 'I' :: 'M' :: 'A' :: 'L' :: '_' ::
        (natDigits m ++ ('_' :: '_' :: t)) := by
    rw [decTok]; simp
  -- offset 0: the whole token (different index) does not match
  have s0 : replaceAll (decTok m ++ t) (decTok n) v =
      '_' :: replaceAll ('_' :: 'D' :: 'E' :: 'C' :: 'I' :: 'M' :: 'A' :: 'L' ::
        '_' :: (natDigits m ++ ('_' :: '_' :: t))) (decTok n) v := by
    rw [hshape]
    refine replaceAll_cons_neg ?_
    rw [← hshape, decTok_not_prefix_of_ne hnm t]
    simp
  -- offset 1: the second character of the pattern is '_', the text has 'D'
  have s1 : replaceAll ('_' :: 'D' :: 'E' :: 'C' :: 'I' :: 'M' :: 'A' :: 'L' ::
      '_' :: (natDigits m ++ ('_' :: '_' :: t))) (decTok n) v =
      '_' :: replaceAll ('D' :: 'E' :: 'C' :: 'I' :: 'M' :: 'A' :: 'L' ::
        '_' :: (natDigits m ++ ('_' :: '_' :: t))) (decTok n) v := by
    refine replaceAll_cons_neg ?_
    rw [decTok]
    simp [List.isPrefixOf]
  -- offsets 2-8: the letters DECIMAL never contain the pattern head '_'
  have s2 : replaceAll ('D' :: 'E' :: 'C' :: 'I' :: 'M' :: 'A' :: 'L' ::
      '_' :: (natDigits m ++ ('_' :: '_' :: t))) (decTok n) v =
      'D' :: 'E' :: 'C' :: 'I' :: 'M' :: 'A' :: 'L' ::
        replaceAll ('_' :: (natDigits m ++ ('_' :: '_' :: t))) (decTok n) v := by
    have := @replaceAll_append_of_head_notMem (decTok n) v '_' hhead
      ['D', 'E', 'C', 'I', 'M', 'A', 'L']
      ('_' :: (natDigits m ++ ('_' :: '_' :: t))) (by decide)
    simpa using this
  -- offset 9: after this '_' the pattern wants '_', the text has a digit
  have s3 : replaceAll ('_' :: (natDigits m ++ ('_' :: '_' :: t))) (decTok n) v =
      '_' :: replaceAll (natDigits m ++ ('_' :: '_' :: t)) (decTok n) v := by
    refine replaceAll_cons_neg ?_
    rw [decTok, hnd]
    simp [List.isPrefixOf, hdu]
  -- the digit run contains no '_'
  have s4 : replaceAll (natDigits m ++ ('_' :: '_' :: t)) (decTok n) v =
      natDigits m ++ replaceAll ('_' :: '_' :: t) (decTok n) v :=
    replaceAll_append_of_head_notMem hhead (natDigits m) _
      (fun c hcm => isDigit_ne_underscore (natDigits_all_digit m c hcm))
  -- first trailing underscore: the pattern tail needs DECIMAL_<digits>,
  -- which cannot match a Clean string
  have s5 : replaceAll ('_' :: '_' :: t) (decTok n) v =
      '_' :: replaceAll ('_' :: t) (decTok n) v := by
    refine replaceAll_cons_neg ?_
    have hmix := @no_mixed_match lo hi n ['_', '_'] t hc
      ['D', 'E', 'C', 'I', 'M', 'A', 'L'] (by decide)
    rw [decTok]
    simp only [List.cons_append, List.nil_append] at hmix
    simp [List.isPrefixOf, hmix]
  -- second trailing underscore
  have s6 : replaceAll ('_' :: t) (decTok n) v =
      '_' :: replaceAll t (decTok n) v := by
    refine replaceAll_cons_neg ?_
    rw [decTok_not_prefix_after_underscore hc]
    simp
  rw [s0, s1, s2, s3, s4, s5, s6]
  conv_rhs => rw [decTok]
  simp

/-- A successful association-list lookup returns a pair of the list. -/
theorem mem_of_lookup_eq_some {l : List (Char × Char)} {a b : Char}
    (h : List.lookup a l = some b) : (a, b) ∈ l := by
  induction l with
  | nil => simp [List.lookup] at h
  | cons p t ih =>
    obtain ⟨k, v⟩ := p
    rw [List.lookup] at h
    cases hbeq : (a == k)
    · simp only [hbeq] at h
      exact List.mem_cons_of_mem _ (ih h)
    · simp only [hbeq] at h
      cases h
      have : a = k := by simpa using hbeq
      subst this
      exact List.mem_cons_self _ _

/-! #### The invariant through the pipeline -/

/-- `Clean` is antitone in the lower index bound. -/
theorem Clean.mono_lo {lo lo' hi : Nat} {t : List Char} (h : lo' ≤ lo)
    (hc : Clean lo hi t) : Clean lo' hi t := by
  induction hc with
  | nil => exact Clean.nil
  | chr hne _ ih => exact Clean.chr hne ih
  | tok hlom hmhi _ ih => exact Clean.tok (Nat.le_trans h hlom) hmhi ih

/-- A string without underscores is `Clean` for any bounds. -/
theorem Clean.of_noU {lo hi : Nat} : ∀ {t : List Char},
    (∀ c ∈ t, c ≠ '_') → Clean lo hi t := by
  intro t
  induction t with
  | nil => intro _; exact Clean.nil
  | cons c t ih =>
    intro h
    exact Clean.chr (h c (by simp)) (ih (fun x hx => h x (List.mem_cons_of_mem _ hx)))

/-- Prepending an underscore-free segment preserves `Clean`. -/
theorem Clean.append_noU {lo hi : Nat} : ∀ {a t : List Char},
    (∀ c ∈ a, c ≠ '_') → Clean lo hi t → Clean lo hi (a ++ t) := by
  intro a
  induction a with
  | nil => intro t _ hc; exact hc
  | cons c a ih =>
    intro t h hc
    exact Clean.chr (h c (by simp))
      (ih (fun x hx => h x (List.mem_cons_of_mem _ hx)) hc)

/-- With an empty token-index interval, a `Clean` string has no
underscores at all. -/
theorem Clean.noU_of_empty {lo : Nat} {t : List Char} (hc : Clean lo lo t) :
    ∀ c ∈ t, c ≠ '_' := by
  generalize hhi : lo = hi at hc
  induction hc with
  | nil => simp
  | chr hne _ ih =>
    intro c hcm
    rcases List.mem_cons.mp hcm with h | h
    · subst h; exact hne
    · exact ih c h
  | tok hlom hmhi _ ih =>
    subst hhi
    omega

/-- The `PUNCT_TRANSLATION` table never produces an underscore. -/
theorem translateChar_punct_ne_underscore {c : Char} (h : c ≠ '_') :
    translateChar PUNCT_TRANSLATION c ≠ '_' := by
  unfold translateChar
  cases hl : List.lookup c PUNCT_TRANSLATION with
  | none => exact h
  | some v =>
    have hv := mem_of_lookup_eq_some hl
    have : ∀ p ∈ PUNCT_TRANSLATION, p.2 ≠ '_' := by decide
    exact this _ hv

/-- Characters of a placeholder token are untouched by the punctuation
translation table. -/
theorem pyTranslate_decTok (m : Nat) :
    pyTranslate PUNCT_TRANSLATION (decTok m) = decTok m := by
  have hdig : ∀ c : Char, c.isDigit = true →
      translateChar PUNCT_TRANSLATION c = c := by
    intro c hc
    unfold translateChar
    cases hl : List.lookup c PUNCT_TRANSLATION with
    | none => rfl
    | some v =>
      have hv := mem_of_lookup_eq_some hl
      have : ∀ p ∈ PUNCT_TRANSLATION, p.1.isDigit = false := by decide
      have := this _ hv
      simp only at this
      rw [hc] at this
      cases this
  rw [decTok, pyTranslate]
  simp only [List.map_cons, List.map_append]
  have h1 : List.map (translateChar PUNCT_TRANSLATION) (natDigits m) = natDigits m := by
    have := List.map_congr_left (l := natDigits m)
      (f := translateChar PUNCT_TRANSLATION) (g := id)
      (fun a ha => hdig a (natDigits_all_digit m a ha))
    rw [this, List.map_id]
  rw [h1]
  have hu : translateChar PUNCT_TRANSLATION '_' = '_' := by decide
  have hD : translateChar PUNCT_TRANSLATION 'D' = 'D' := by decide
  have hE : translateChar PUNCT_TRANSLATION 'E' = 'E' := by decide
  have hC : translateChar PUNCT_TRANSLATION 'C' = 'C' := by decide
  have hI : translateChar PUNCT_TRANSLATION 'I' = 'I' := by decide
  have hM : translateChar PUNCT_TRANSLATION 'M' = 'M' := by decide
  have hA : translateChar PUNCT_TRANSLATION 'A' = 'A' := by decide
  have hL : translateChar PUNCT_TRANSLATION 'L' = 'L' := by decide
  simp [hu, hD, hE, hC, hI, hM, hA, hL]

/-- The punctuation translation preserves the protection invariant. -/
theorem Clean.translate {lo hi : Nat} {t : List Char} (hc : Clean lo hi t) :
    Clean lo hi (pyTranslate PUNCT_TRANSLATION t) := by
  induction hc with
  | nil => exact Clean.nil
  | chr hne _ ih =>
    rw [pyTranslate, List.map_cons]
    exact Clean.chr (translateChar_punct_ne_underscore hne) ih
  | tok hlom hmhi _ ih =>
    rw [pyTranslate, List.map_append]
    rw [show List.map (translateChar PUNCT_TRANSLATION) (decTok _) = decTok _ from
      pyTranslate_decTok _]
    exact Clean.tok hlom hmhi ih

/-- No character of a placeholder token belongs to the `punct_all` class. -/
theorem decTok_nopunct (m : Nat) : ∀ c ∈ decTok m, punctAll c = false := by
  intro c hc
  rw [decTok] at hc
  simp only [List.mem_cons, List.mem_append] at hc
  rcases hc with h | h | h | h | h | h | h | h | h | h | h
  · subst h; decide
  · subst h; decide
  · subst h; decide
  · subst h; decide
  · subst h; decide
  · subst h; decide
  · subst h; decide
  · subst h; decide
  · subst h; decide
  · subst h; decide
  · rcases h with h | h
    · exact isDigit_not_punct (natDigits_all_digit m c h)
    · rcases h with h1 | h1 | h1
      · subst h1; decide
      · subst h1; decide
      · simp at h1

/-- `collapseRepeats` distributes over a punctuation-free prefix. -/
theorem collapseRepeats_append_nopunct : ∀ {a t : List Char},
    (∀ c ∈ a, punctAll c = false) →
    collapseRepeats (a ++ t) = a ++ collapseRepeats t := by
  intro a
  induction a with
  | nil => intro t _; rfl
  | cons c a ih =>
    intro t h
    have hc : punctAll c = false := h c (by simp)
    rw [List.cons_append]
    cases ha : a ++ t with
    | nil =>
      have hat := List.append_eq_nil.mp ha
      rw [hat.1, hat.2]
      rfl
    | cons d rest =>
      rw [collapseRepeats, if_neg (by rw [hc]; simp), ← ha,
        ih (fun x hx => h x (List.mem_cons_of_mem _ hx))]
      rfl

/-- The punctuation collapse preserves the protection invariant. -/
theorem Clean.collapse {lo hi : Nat} {t : List Char} (hc : Clean lo hi t) :
    Clean lo hi (collapseRepeats t) := by
  induction hc with
  | nil => exact Clean.nil
  | chr hne hct ih =>
    rename_i c t'
    cases t' with
    | nil => exact Clean.chr hne Clean.nil
    | cons c2 cs =>
      by_cases hpp : (punctAll c && punctAll c2) = true
      · rw [collapseRepeats, if_pos hpp]
        exact ih
      · rw [collapseRepeats, if_neg hpp]
        exact Clean.chr hne ih
  | tok hlom hmhi hct ih =>
    rw [collapseRepeats_append_nopunct (decTok_nopunct _)]
    exact Clean.tok hlom hmhi ih


/-- Restoring the token with the lowest index steps the invariant: all its
occurrences are replaced by the underscore-free value, and no other token
is disturbed. -/
theorem Clean.replace {lo hi : Nat} {v : List Char} (hv : ∀ c ∈ v, c ≠ '_') :
    ∀ {Z : List Char}, Clean lo hi Z →
    Clean (lo + 1) hi (replaceAll Z (decTok lo) v) := by
  intro Z hc
  induction hc with
  | nil =>
    rw [show replaceAll [] (decTok lo) v = [] from rfl]
    exact Clean.nil
  | chr hne hct ih =>
    rename_i c t'
    have hpre : ((decTok lo).isPrefixOf (c :: t')) = false := by
      have hb : ('_' == c) = false := by
        simp only [beq_eq_false_iff_ne, ne_eq]
        exact fun h => hne h.symm
      rw [decTok]
      simp [List.isPrefixOf, hb]
    rw [replaceAll_cons_neg (by simp [hpre])]
    exact Clean.chr hne ih
  | tok hlom hmhi hct ih =>
    rename_i m t'
    by_cases hm : m = lo
    · subst hm
      rw [replaceAll_pref (by rw [decTok]; simp)]
      exact Clean.append_noU hv ih
    · rw [replaceAll_skip_tok (fun h => hm h.symm) hct]
      exact Clean.tok (by omega) hmhi ih

/-- After the restore loop has consumed all recorded tokens, the string has
no underscore left. -/
theorem restore_noU :
    ∀ (ds : List (List Char × List Char)) (lo : Nat) (Z : List Char),
    DsFrom lo ds → Clean lo (lo + ds.length) Z →
    ∀ c ∈ restoreDecimals ds Z, c ≠ '_' := by
  intro ds
  induction ds with
  | nil =>
    intro lo Z _ hc
    rw [show restoreDecimals [] Z = Z from rfl]
    exact Clean.noU_of_empty (by simpa using hc)
  | cons p ds ih =>
    intro lo Z hds hc
    cases hds with
    | cons h1 h2 h3 h4 hds' =>
      rename_i d1 d2
      have hv : ∀ c ∈ d1 ++ '.' :: d2, c ≠ '_' := by
        intro c hc'
        rcases List.mem_append.mp hc' with h | h
        · exact isDigit_ne_underscore (h3 c h)
        · rcases List.mem_cons.mp h with h | h
          · subst h; decide
          · exact isDigit_ne_underscore (h4 c h)
      rw [show restoreDecimals ((decTok lo, d1 ++ '.' :: d2) :: ds) Z =
        restoreDecimals ds (replaceAll Z (decTok lo) (d1 ++ '.' :: d2)) from rfl]
      refine ih (lo + 1) _ hds' ?_
      have hlen : lo + ((decTok lo, d1 ++ '.' :: d2) :: ds).length =
          (lo + 1) + ds.length := by
        simp
        omega
      rw [hlen] at hc
      exact Clean.replace hv hc

/-- The decimal-protection scan of an underscore-free input produces a
`Clean` protected string whose tokens are exactly the recorded ones, with
consecutive indices. -/
theorem capture_clean : ∀ (fuel : Nat) (s : List Char) (n : Nat),
    (∀ c ∈ s, c ≠ '_') →
    Clean n (n + (captureAux fuel s n).2.length) (captureAux fuel s n).1 ∧
    DsFrom n (captureAux fuel s n).2 := by
  intro fuel
  induction fuel with
  | zero =>
    intro s n hs
    cases s with
    | nil => exact ⟨Clean.nil, DsFrom.nil⟩
    | cons c cs =>
      refine ⟨?_, DsFrom.nil⟩
      rw [show captureAux 0 (c :: cs) n = (c :: cs, []) from rfl]
      simpa using Clean.of_noU hs
  | succ fuel ih =>
    intro s n hs
    cases s with
    | nil => exact ⟨Clean.nil, DsFrom.nil⟩
    | cons c cs =>
      have htake : ∀ x ∈ (c :: cs).takeWhile pyDigit, x ≠ '_' :=
        fun x hx => hs x ((List.takeWhile_sublist _).mem hx)
      have hdropmem : ∀ x ∈ (c :: cs).dropWhile pyDigit, x ≠ '_' :=
        fun x hx => hs x ((List.dropWhile_sublist _).mem hx)
      by_cases hd : pyDigit c = true
      · rw [captureAux, if_pos hd]
        dsimp only
        split
        · rename_i r2 heq
          have hr2 : ∀ x ∈ r2, x ≠ '_' := by
            intro x hx
            exact hdropmem x (by rw [heq]; exact List.mem_cons_of_mem _ hx)
          by_cases hd2 : (r2.takeWhile pyDigit).isEmpty = true
          · rw [if_pos hd2]
            obtain ⟨hcl, hds⟩ := ih r2 n hr2
            refine ⟨?_, hds⟩
            refine Clean.append_noU htake ?_
            exact Clean.chr (by decide) hcl
          · rw [if_neg hd2]
            have hrest : ∀ x ∈ r2.dropWhile pyDigit, x ≠ '_' :=
              fun x hx => hr2 x ((List.dropWhile_sublist _).mem hx)
            obtain ⟨hcl, hds⟩ := ih (r2.dropWhile pyDigit) (n + 1) hrest
            constructor
            · have hlen : n + ((decTok n, (c :: cs).takeWhile pyDigit ++ '.' ::
                  r2.takeWhile pyDigit) ::
                  (captureAux fuel (r2.dropWhile pyDigit) (n + 1)).2).length =
                  (n + 1) + (captureAux fuel (r2.dropWhile pyDigit) (n + 1)).2.length := by
                simp
                omega
              rw [hlen]
              exact Clean.tok (Nat.le_refl n) (by omega) (hcl.mono_lo (by omega))
            · refine DsFrom.cons ?_ ?_ ?_ ?_ hds
              · rw [List.takeWhile_cons_of_pos hd]
                simp
              · intro hnil
                rw [hnil] at hd2
                exact hd2 rfl
              · intro x hx
                exact List.mem_takeWhile_imp hx
              · intro x hx
                exact List.mem_takeWhile_imp hx
        · obtain ⟨hcl, hds⟩ := ih ((c :: cs).dropWhile pyDigit) n hdropmem
          exact ⟨Clean.append_noU htake hcl, hds⟩
      · rw [captureAux, if_neg hd]
        obtain ⟨hcl, hds⟩ := ih cs n
          (fun x hx => hs x (List.mem_cons_of_mem _ hx))
        exact ⟨Clean.chr (hs c (by simp)) hcl, hds⟩


/-- Whitespace collapsing only introduces spaces: every character of the
output is a space or a character of the input. -/
theorem mem_collapseWhitespace : ∀ {l : List Char} {x : Char},
    x ∈ collapseWhitespace l → x = ' ' ∨ x ∈ l := by
  intro l
  induction l with
  | nil => intro x hx; cases hx
  | cons c t ih =>
    intro x hx
    cases t with
    | nil =>
      by_cases hsp : pySpace c = true
      · rw [collapseWhitespace, if_pos hsp] at hx
        rcases List.mem_singleton.mp hx with h
        exact Or.inl h
      · rw [collapseWhitespace, if_neg hsp] at hx
        rcases List.mem_singleton.mp hx with h
        exact Or.inr (by rw [h]; simp)
    | cons c2 cs =>
      by_cases hpp : (pySpace c && pySpace c2) = true
      · rw [collapseWhitespace, if_pos hpp] at hx
        rcases ih hx with h | h
        · exact Or.inl h
        · exact Or.inr (List.mem_cons_of_mem _ h)
      · rw [collapseWhitespace, if_neg hpp] at hx
        rcases List.mem_cons.mp hx with h | h
        · by_cases hsp : pySpace c = true
          · rw [if_pos hsp] at h; exact Or.inl h
          · rw [if_neg hsp] at h; exact Or.inr (by rw [h]; simp)
        · rcases ih h with h1 | h1
          · exact Or.inl h1
          · exact Or.inr (List.mem_cons_of_mem _ h1)

/-- Stripping only removes characters. -/
theorem mem_pyStrip {l : List Char} {x : Char} (hx : x ∈ pyStrip l) : x ∈ l := by
  rw [pyStrip] at hx
  have h1 := List.mem_reverse.mp hx
  have h2 := (List.dropWhile_sublist pySpace).mem h1
  have h3 := List.mem_reverse.mp h2
  exact (List.dropWhile_sublist pySpace).mem h3

/-- A string matching the placeholder pattern starts with an underscore. -/
theorem head_eq_underscore_of_placeholderAt : ∀ {l : List Char},
    placeholderAt l = true → l.head? = some '_' := by
  intro l h
  unfold placeholderAt at h
  cases l with
  | nil => exact absurd h (by decide)
  | cons c t =>
    simp only [Bool.and_eq_true] at h
    have hpre : ['_', '_', 'D', 'E', 'C', 'I', 'M', 'A', 'L', '_'] <+: (c :: t) :=
      List.isPrefixOf_iff_prefix.mp h.1.1
    rw [List.cons_prefix_cons] at hpre
    rw [← hpre.1]
    rfl

/-- A string containing the placeholder pattern contains an underscore. -/
theorem underscore_mem_of_hasPlaceholder : ∀ {l : List Char},
    hasPlaceholder l = true → '_' ∈ l := by
  intro l
  induction l with
  | nil => intro h; cases h
  | cons c t ih =>
    intro h
    rw [hasPlaceholder] at h
    rcases (Bool.or_eq_true _ _).mp h with h1 | h1
    · have := head_eq_underscore_of_placeholderAt h1
      simp only [List.head?_cons, Option.some.injEq] at this
      rw [← this]
      simp
    · exact List.mem_cons_of_mem _ (ih h1)

/-- On an underscore-free input, the text produced by the punctuation stage
is underscore-free: all the placeholders generated by the decimal
protection are consumed by the restore loop. -/
theorem applyList_noU (s : List Char) (hs : ∀ c ∈ s, c ≠ '_') :
    ∀ c ∈ PunctuationNormalizer.applyList s, c ≠ '_' := by
  obtain ⟨hcl, hds⟩ := capture_clean s.length s 0 hs
  have h1 := hcl.translate
  have h2 := h1.collapse
  have h3 := restore_noU (captureAux s.length s 0).2 0
    (collapseRepeats (pyTranslate PUNCT_TRANSLATION (captureAux s.length s 0).1))
    hds (by simpa using h2)
  intro c hc
  rw [PunctuationNormalizer.applyList] at hc
  have hc' := mem_pyStrip hc
  rcases mem_collapseWhitespace hc' with h | h
  · rw [h]; decide
  · exact h3 c h

/-! #### Shape of the collapse and whitespace passes -/

/-- The collapse steps over a non-punctuation character. -/
theorem collapseRepeats_cons_of_not_punct {c : Char} {cs : List Char}
    (h : punctAll c = false) :
    collapseRepeats (c :: cs) = c :: collapseRepeats cs := by
  cases cs with
  | nil => rfl
  | cons c2 cs' => rw [collapseRepeats, if_neg (by rw [h]; simp)]

/-- The head of a collapsed string that starts with a non-punctuation
character is that character. -/
theorem collapseRepeats_head {c : Char} {cs : List Char}
    (h : punctAll c = false) :
    (collapseRepeats (c :: cs)).head? = some c := by
  rw [collapseRepeats_cons_of_not_punct h]
  rfl

/-- The output of the repeated-punctuation collapse never contains two
adjacent punctuation marks. -/
theorem punctSep_collapseRepeats : ∀ l : List Char, PunctSep (collapseRepeats l) := by
  intro l
  induction l with
  | nil => exact List.chain'_nil
  | cons c t ih =>
    cases t with
    | nil => simp [collapseRepeats, PunctSep]
    | cons c2 cs =>
      by_cases hpp : (punctAll c && punctAll c2) = true
      · rw [collapseRepeats, if_pos hpp]
        exact ih
      · rw [collapseRepeats, if_neg hpp]
        rw [PunctSep, List.chain'_cons']
        refine ⟨?_, ih⟩
        intro b hb
        by_cases hc : punctAll c = true
        · have hc2 : punctAll c2 = false := by
            cases h2 : punctAll c2 with
            | false => rfl
            | true => rw [hc, h2] at hpp; simp at hpp
          rw [collapseRepeats_head hc2] at hb
          cases hb
          intro hco
          rw [hc2] at hco
          exact absurd hco.2 (by simp)
        · intro hco
          exact hc hco.1
      
/-- A string with no adjacent punctuation marks is a fixed point of the
collapse. -/
theorem collapseRepeats_eq_self {l : List Char} (h : PunctSep l) :
    collapseRepeats l = l := by
  induction l with
  | nil => rfl
  | cons c t ih =>
    cases t with
    | nil => rfl
    | cons c2 cs =>
      rw [PunctSep, List.chain'_cons] at h
      have hne : (punctAll c && punctAll c2) ≠ true := by
        intro hb
        exact h.1 ⟨(Bool.and_eq_true _ _ ▸ hb).1, (Bool.and_eq_true _ _ ▸ hb).2⟩
      rw [collapseRepeats, if_neg hne, ih h.2]

/-- The whitespace collapse steps over a non-whitespace character. -/
theorem collapseWhitespace_cons_of_not_space {c : Char} {cs : List Char}
    (h : pySpace c = false) :
    collapseWhitespace (c :: cs) = c :: collapseWhitespace cs := by
  cases cs with
  | nil => simp [collapseWhitespace, h]
  | cons c2 cs' => simp [collapseWhitespace, h]

/-- A whitespace run at the head of the input surfaces as a single space. -/
theorem collapseWhitespace_head_space : ∀ {cs : List Char} {c : Char},
    pySpace c = true → (collapseWhitespace (c :: cs)).head? = some ' ' := by
  intro cs
  induction cs with
  | nil =>
    intro c h
    simp [collapseWhitespace, h]
  | cons c2 cs' ih =>
    intro c h
    by_cases h2 : pySpace c2 = true
    · rw [collapseWhitespace, if_pos (by rw [h, h2]; rfl)]
      exact ih h2
    · rw [collapseWhitespace,
        if_neg (by simp [h2]), if_pos h]
      rfl

/-- The head of the whitespace collapse of a string headed by a
non-whitespace character is that character. -/
theorem collapseWhitespace_head {c : Char} {cs : List Char}
    (h : pySpace c = false) :
    (collapseWhitespace (c :: cs)).head? = some c := by
  rw [collapseWhitespace_cons_of_not_space h]
  rfl

/-- The output of the whitespace collapse has no two adjacent whitespace
characters. -/
theorem spaceSep_collapseWhitespace : ∀ l : List Char,
    SpaceSep (collapseWhitespace l) := by
  intro l
  induction l with
  | nil => exact List.chain'_nil
  | cons c t ih =>
    cases t with
    | nil =>
      by_cases h : pySpace c = true
      · rw [collapseWhitespace, if_pos h]
        simp [SpaceSep]
      · rw [collapseWhitespace, if_neg h]
        simp [SpaceSep]
    | cons c2 cs =>
      by_cases hpp : (pySpace c && pySpace c2) = true
      · rw [collapseWhitespace, if_pos hpp]
        exact ih
      · rw [collapseWhitespace, if_neg hpp]
        rw [SpaceSep, List.chain'_cons']
        refine ⟨?_, ih⟩
        intro b hb
        by_cases hc : pySpace c = true
        · have hc2 : pySpace c2 = false := by
            cases h2 : pySpace c2 with
            | false => rfl
            | true => rw [hc, h2] at hpp; simp at hpp
          rw [collapseWhitespace_head hc2] at hb
          cases hb
          intro hco
          rw [hc2] at hco
          exact absurd hco.2 (by simp)
        · have hc' : pySpace c = false := by
            cases hcc : pySpace c with
            | false => rfl
            | true => exact absurd hcc hc
          rw [if_neg hc]
          intro hco
          rw [hc'] at hco
          exact absurd hco.1 (by simp)

/-- Every whitespace character surviving the whitespace collapse is a
plain space. -/
theorem spacesOnly_collapseWhitespace : ∀ l : List Char,
    SpacesOnly (collapseWhitespace l) := by
  intro l
  induction l with
  | nil => intro c hc; cases hc
  | cons c t ih =>
    cases t with
    | nil =>
      by_cases h : pySpace c = true
      · rw [collapseWhitespace, if_pos h]
        intro x hx _
        simpa using List.mem_singleton.mp hx
      · rw [collapseWhitespace, if_neg h]
        intro x hx hs
        have hxc := List.mem_singleton.mp hx
        subst hxc
        exact absurd hs h
    | cons c2 cs =>
      by_cases hpp : (pySpace c && pySpace c2) = true
      · rw [collapseWhitespace, if_pos hpp]
        exact ih
      · rw [collapseWhitespace, if_neg hpp]
        intro x hx hs
        rcases List.mem_cons.mp hx with h | h
        · by_cases hc : pySpace c = true
          · rw [if_pos hc] at h
            exact h
          · rw [if_neg hc] at h
            subst h
            exact absurd hs hc
        · exact ih x h hs

/-- A string whose whitespace is single plain spaces is a fixed point of
the whitespace collapse. -/
theorem collapseWhitespace_eq_self {l : List Char} (hso : SpacesOnly l)
    (hss : SpaceSep l) : collapseWhitespace l = l := by
  induction l with
  | nil => rfl
  | cons c t ih =>
    have hcc : pySpace c = true → c = ' ' := hso c (by simp)
    cases t with
    | nil =>
      by_cases h : pySpace c = true
      · rw [collapseWhitespace, if_pos h, hcc h]
      · rw [collapseWhitespace, if_neg h]
    | cons c2 cs =>
      rw [SpaceSep, List.chain'_cons] at hss
      have hne : (pySpace c && pySpace c2) ≠ true := by
        intro hb
        exact hss.1 ⟨(Bool.and_eq_true _ _ ▸ hb).1, (Bool.and_eq_true _ _ ▸ hb).2⟩
      rw [collapseWhitespace, if_neg hne,
        ih (fun x hx => hso x (List.mem_cons_of_mem _ hx)) hss.2]
      by_cases h : pySpace c = true
      · rw [if_pos h, hcc h]
      · rw [if_neg h]

/-! #### Transport of the shape predicates through stripping -/

/-- A chain survives `dropWhile`. -/
theorem chain_dropWhile {R : Char → Char → Prop} {p : Char → Bool} :
    ∀ {l : List Char}, List.Chain' R l → List.Chain' R (l.dropWhile p) := by
  intro l
  induction l with
  | nil => intro h; exact h
  | cons c t ih =>
    intro h
    by_cases hc : p c = true
    · rw [List.dropWhile_cons_of_pos hc]
      exact ih h.tail
    · rw [List.dropWhile_cons_of_neg hc]
      exact h

/-- A chain with a symmetric relation survives reversal. -/
theorem chain_reverse_of_symm {R : Char → Char → Prop}
    (hs : ∀ a b, R a b → R b a) {l : List Char} (h : List.Chain' R l) :
    List.Chain' R l.reverse := by
  rw [List.chain'_reverse]
  exact h.imp (fun a b hab => hs a b hab)

/-- A chain with a symmetric relation survives `pyStrip`. -/
theorem chain_pyStrip {R : Char → Char → Prop} (hs : ∀ a b, R a b → R b a)
    {l : List Char} (h : List.Chain' R l) : List.Chain' R (pyStrip l) := by
  rw [pyStrip]
  exact chain_reverse_of_symm hs (chain_dropWhile (chain_reverse_of_symm hs
    (chain_dropWhile h)))

/-- The head surviving a `dropWhile` fails the dropped predicate. -/
theorem head_dropWhile_not {p : Char → Bool} :
    ∀ {l : List Char} {b : Char}, (l.dropWhile p).head? = some b → p b = false := by
  intro l
  induction l with
  | nil => intro b hb; cases hb
  | cons c t ih =>
    intro b hb
    by_cases hc : p c = true
    · rw [List.dropWhile_cons_of_pos hc] at hb
      exact ih hb
    · rw [List.dropWhile_cons_of_neg hc] at hb
      cases hb
      cases hcc : p c with
      | false => rfl
      | true => exact absurd hcc hc

/-- `dropWhile` is idempotent. -/
theorem dropWhile_dropWhile {p : Char → Bool} :
    ∀ (l : List Char), (l.dropWhile p).dropWhile p = l.dropWhile p := by
  intro l
  induction l with
  | nil => rfl
  | cons c t ih =>
    by_cases hc : p c = true
    · rw [List.dropWhile_cons_of_pos hc]
      exact ih
    · rw [List.dropWhile_cons_of_neg hc, List.dropWhile_cons_of_neg hc]

/-- A non-empty `dropWhile` keeps the last element of the list. -/
theorem getLast_dropWhile {p : Char → Bool} {l : List Char}
    (h : l.dropWhile p ≠ []) : (l.dropWhile p).getLast? = l.getLast? := by
  obtain ⟨pre, hpre⟩ := (List.dropWhile_suffix p (l := l))
  calc (l.dropWhile p).getLast? = (pre ++ l.dropWhile p).getLast? :=
        (List.getLast?_append_of_ne_nil pre h).symm
    _ = l.getLast? := by rw [hpre]

/-- `pyStrip` is idempotent. -/
theorem pyStrip_pyStrip (l : List Char) : pyStrip (pyStrip l) = pyStrip l := by
  by_cases hB : (l.dropWhile pySpace).reverse.dropWhile pySpace = []
  · have h0 : pyStrip l = [] := by rw [pyStrip, hB]; rfl
    rw [h0]
    rfl
  · have hhead : ∀ b ∈ (pyStrip l).head?, pySpace b = false := by
      intro b hb
      rw [pyStrip, List.head?_reverse] at hb
      have hlast := getLast_dropWhile (p := pySpace)
        (l := (l.dropWhile pySpace).reverse) hB
      rw [hlast] at hb
      rw [← List.head?_reverse, List.reverse_reverse] at hb
      exact head_dropWhile_not hb
    have h1 : (pyStrip l).dropWhile pySpace = pyStrip l := by
      cases hsl : pyStrip l with
      | nil => rfl
      | cons c t =>
        refine List.dropWhile_cons_of_neg ?_
        have := hhead c (by rw [hsl]; rfl)
        rw [this]
        simp
    have h2 : (pyStrip l).reverse.dropWhile pySpace = (pyStrip l).reverse := by
      rw [pyStrip, List.reverse_reverse]
      cases hC : (l.dropWhile pySpace).reverse.dropWhile pySpace with
      | nil => rfl
      | cons c t =>
        refine List.dropWhile_cons_of_neg ?_
        have : ((l.dropWhile pySpace).reverse.dropWhile pySpace).head? = some c := by
          rw [hC]; rfl
        rw [head_dropWhile_not this]
        simp
    rw [pyStrip, h1, h2]
    rw [pyStrip, List.reverse_reverse]

/-! #### Character provenance through the pipeline -/

/-- Characters of the collapse output come from the input. -/
theorem mem_collapseRepeats : ∀ {l : List Char} {x : Char},
    x ∈ collapseRepeats l → x ∈ l := by
  intro l
  induction l with
  | nil => intro x hx; cases hx
  | cons c t ih =>
    intro x hx
    cases t with
    | nil => exact hx
    | cons c2 cs =>
      by_cases hpp : (punctAll c && punctAll c2) = true
      · rw [collapseRepeats, if_pos hpp] at hx
        exact List.mem_cons_of_mem _ (ih hx)
      · rw [collapseRepeats, if_neg hpp] at hx
        rcases List.mem_cons.mp hx with h | h
        · rw [h]; simp
        · exact List.mem_cons_of_mem _ (ih h)

/-- Characters of a `str.replace` output come from the input or the
replacement. -/
theorem mem_replaceAll {pat rep : List Char} :
    ∀ {s : List Char} {x : Char}, x ∈ replaceAll s pat rep → x ∈ s ∨ x ∈ rep := by
  suffices h : ∀ (f : Nat) (s : List Char) (x : Char), s.length ≤ f →
      x ∈ replaceAllAux pat rep f s → x ∈ s ∨ x ∈ rep by
    intro s x hx
    exact h s.length s x (Nat.le_refl _) hx
  intro f
  induction f with
  | zero =>
    intro s x hf hx
    have : s = [] := List.length_eq_zero.mp (Nat.le_zero.mp hf)
    subst this
    cases hx
  | succ f ih =>
    intro s x hf hx
    cases s with
    | nil => cases hx
    | cons c cs =>
      rw [replaceAllAux] at hx
      by_cases hcond : (pat ≠ [] && pat.isPrefixOf (c :: cs)) = true
      · rw [if_pos hcond] at hx
        rcases List.mem_append.mp hx with h | h
        · exact Or.inr h
        · have hpat : 1 ≤ pat.length := by
            cases pat with
            | nil => simp at hcond
            | cons p ps => simp
          have hdl : ((c :: cs).drop pat.length).length ≤ f := by
            simp only [List.length_drop, List.length_cons] at *
            omega
          rcases ih _ x hdl h with h1 | h1
          · exact Or.inl ((List.drop_sublist _ _).mem h1)
          · exact Or.inr h1
      · rw [if_neg hcond] at hx
        rcases List.mem_cons.mp hx with h | h
        · rw [h]; simp
        · have : cs.length ≤ f := by simp at hf; omega
          rcases ih cs x this h with h1 | h1
          · exact Or.inl (List.mem_cons_of_mem _ h1)
          · exact Or.inr h1

/-- Characters of the restore output come from the input or from one of
the recorded decimal values. -/
theorem mem_restoreDecimals :
    ∀ (ds : List (List Char × List Char)) (Z : List Char) (x : Char),
    x ∈ restoreDecimals ds Z → x ∈ Z ∨ ∃ q ∈ ds, x ∈ q.2 := by
  intro ds
  induction ds with
  | nil => intro Z x hx; exact Or.inl hx
  | cons q ds ih =>
    intro Z x hx
    rw [show restoreDecimals (q :: ds) Z =
      restoreDecimals ds (replaceAll Z q.1 q.2) from rfl] at hx
    rcases ih _ x hx with h | h
    · rcases mem_replaceAll h with h1 | h1
      · exact Or.inl h1
      · exact Or.inr ⟨q, by simp, h1⟩
    · obtain ⟨q1, hq1, hq2⟩ := h
      exact Or.inr ⟨q1, List.mem_cons_of_mem _ hq1, hq2⟩

/-! #### Untranslatable characters -/

/-- ASCII digits are not keys of the punctuation table. -/
theorem lookup_punct_digit_none {c : Char} (h : c.isDigit = true) :
    List.lookup c PUNCT_TRANSLATION = none := by
  cases hl : List.lookup c PUNCT_TRANSLATION with
  | none => rfl
  | some v =>
    have hv := mem_of_lookup_eq_some hl
    have hk : ∀ p ∈ PUNCT_TRANSLATION, p.1.isDigit = false := by decide
    have := hk _ hv
    simp only at this
    rw [h] at this
    cases this

/-- The image of the punctuation translation is never itself a key of the
table: translated characters are ASCII targets, untranslated characters
were not keys in the first place. -/
theorem translateChar_image_untranslatable (c : Char) :
    List.lookup (translateChar PUNCT_TRANSLATION c) PUNCT_TRANSLATION = none := by
  unfold translateChar
  cases hl : List.lookup c PUNCT_TRANSLATION with
  | none => exact hl
  | some v =>
    have hv := mem_of_lookup_eq_some hl
    have : ∀ p ∈ PUNCT_TRANSLATION, List.lookup p.2 PUNCT_TRANSLATION = none := by
      decide
    exact this _ hv

/-- The translation pass outputs an untranslatable string. -/
theorem untranslatable_pyTranslate (l : List Char) :
    Untranslatable (pyTranslate PUNCT_TRANSLATION l) := by
  intro c hc
  obtain ⟨d, -, hd⟩ := List.mem_map.mp hc
  rw [← hd]
  exact translateChar_image_untranslatable d

/-! #### Chain preservation through the restore loop -/

/-- Heads are members. -/
theorem mem_of_head? : ∀ {l : List Char} {b : Char}, l.head? = some b → b ∈ l := by
  intro l b hb
  cases l with
  | nil => cases hb
  | cons c t => cases hb; simp

/-- Last elements are members. -/
theorem mem_of_getLast? : ∀ {l : List Char} {b : Char}, l.getLast? = some b → b ∈ l := by
  intro l
  induction l with
  | nil => intro b hb; cases hb
  | cons c t ih =>
    intro b hb
    cases t with
    | nil =>
      rw [List.getLast?_singleton] at hb
      cases hb
      simp
    | cons c2 cs =>
      rw [List.getLast?_cons_cons] at hb
      exact List.mem_cons_of_mem _ (ih hb)

/-- A string of non-punctuation characters is punctuation-separated. -/
theorem punctSep_of_all_not_punct : ∀ {l : List Char},
    (∀ c ∈ l, punctAll c = false) → PunctSep l := by
  intro l
  induction l with
  | nil => intro _; exact List.chain'_nil
  | cons c t ih =>
    intro h
    rw [PunctSep, List.chain'_cons']
    refine ⟨?_, ih (fun x hx => h x (List.mem_cons_of_mem _ hx))⟩
    intro b _ hco
    have := h c (by simp)
    rw [this] at hco
    exact absurd hco.1 (by simp)

/-- A recorded decimal value `digits '.' digits` is punctuation-separated:
the dot is flanked by digits on both sides. -/
theorem punctSep_val {d1 d2 : List Char} (h1 : d1 ≠ []) (h2 : d2 ≠ [])
    (h3 : ∀ c ∈ d1, c.isDigit = true) (h4 : ∀ c ∈ d2, c.isDigit = true) :
    PunctSep (d1 ++ '.' :: d2) := by
  rw [PunctSep, List.chain'_append]
  refine ⟨punctSep_of_all_not_punct (fun c hc => isDigit_not_punct (h3 c hc)),
    ?_, ?_⟩
  · rw [List.chain'_cons']
    refine ⟨?_, punctSep_of_all_not_punct (fun c hc => isDigit_not_punct (h4 c hc))⟩
    intro b hb hco
    have := isDigit_not_punct (h4 b (mem_of_head? hb))
    rw [this] at hco
    exact absurd hco.2 (by simp)
  · intro x hx y _ hco
    have := isDigit_not_punct (h3 x (mem_of_getLast? hx))
    rw [this] at hco
    exact absurd hco.1 (by simp)

/-- The head of a `str.replace` output is the head of the input or the head
of the replacement. -/
theorem replaceAll_head_cases {pat v : List Char} (hv : v ≠ []) :
    ∀ (t : List Char), (replaceAll t pat v).head? = t.head? ∨
      (replaceAll t pat v).head? = v.head? := by
  intro t
  cases t with
  | nil => exact Or.inl rfl
  | cons c cs =>
    by_cases hcond : (pat ≠ [] && pat.isPrefixOf (c :: cs)) = true
    · right
      have hpat : pat ≠ [] := by
        cases pat with
        | nil => simp at hcond
        | cons p ps => simp
      obtain ⟨hpre⟩ : ∃ _ : pat.isPrefixOf (c :: cs) = true, True := by
        rcases Bool.and_eq_true _ _ ▸ hcond with ⟨-, h2⟩
        exact ⟨h2, trivial⟩
      obtain ⟨rest, hrest⟩ := List.isPrefixOf_iff_prefix.mp hpre
      rw [← hrest, replaceAll_pref hpat]
      cases hv2 : v with
      | nil => exact absurd hv2 hv
      | cons v0 vs => rfl
    · left
      have hcond' : (pat ≠ [] && pat.isPrefixOf (c :: cs)) = false := by
        cases hcc : (pat ≠ [] && pat.isPrefixOf (c :: cs)) with
        | false => rfl
        | true => exact absurd hcc hcond
      rw [replaceAll_cons_neg hcond']
      rfl

/-- Replacing the lowest-index token by its decimal value preserves
punctuation separation. -/
theorem punctSep_replace {lo hi : Nat} {d1 d2 : List Char} (h1 : d1 ≠ [])
    (h2 : d2 ≠ []) (h3 : ∀ c ∈ d1, c.isDigit = true)
    (h4 : ∀ c ∈ d2, c.isDigit = true) :
    ∀ {Z : List Char}, Clean lo hi Z → PunctSep Z →
    PunctSep (replaceAll Z (decTok lo) (d1 ++ '.' :: d2)) := by
  intro Z hc
  induction hc with
  | nil => intro _; exact List.chain'_nil
  | chr hne hct ih =>
    rename_i c t'
    intro hp
    have hpre : ((decTok lo).isPrefixOf (c :: t')) = false := by
      have hb : ('_' == c) = false := by
        simp only [beq_eq_false_iff_ne, ne_eq]
        exact fun h => hne h.symm
      rw [decTok]
      simp [List.isPrefixOf, hb]
    rw [replaceAll_cons_neg (by simp [hpre])]
    have hpt : PunctSep t' := (List.chain'_cons'.mp hp).2
    rw [PunctSep, List.chain'_cons']
    refine ⟨?_, ih hpt⟩
    intro b hb
    have hval_ne : (d1 ++ '.' :: d2) ≠ [] := by simp
    rcases replaceAll_head_cases hval_ne t' with hh | hh
    · rw [hh] at hb
      exact (List.chain'_cons'.mp hp).1 b hb
    · rw [hh] at hb
      obtain ⟨e1, es, he⟩ : ∃ e1 es, d1 = e1 :: es := by
        cases hd1 : d1 with
        | nil => exact absurd hd1 h1
        | cons e1 es => exact ⟨e1, es, rfl⟩
      rw [he] at hb
      simp only [List.cons_append, List.head?_cons, Option.mem_def,
        Option.some.injEq] at hb
      subst hb
      intro hco
      have := isDigit_not_punct (h3 e1 (by rw [he]; simp))
      rw [this] at hco
      exact absurd hco.2 (by simp)
  | tok hlom hmhi hct ih =>
    rename_i m t'
    intro hp
    rw [PunctSep, List.chain'_append] at hp
    by_cases hm : m = lo
    · subst hm
      rw [replaceAll_pref (by rw [decTok]; simp)]
      rw [PunctSep, List.chain'_append]
      refine ⟨punctSep_val h1 h2 h3 h4, ih hp.2.1, ?_⟩
      intro x hx y _ hco
      have hlast : (d1 ++ '.' :: d2).getLast? = d2.getLast? := by
        rw [List.getLast?_append_of_ne_nil d1 (by simp)]
        rw [show ('.' :: d2 : List Char) = ['.'] ++ d2 from rfl,
          List.getLast?_append_of_ne_nil ['.'] h2]
      rw [hlast] at hx
      have := isDigit_not_punct (h4 x (mem_of_getLast? hx))
      rw [this] at hco
      exact absurd hco.1 (by simp)
    · rw [replaceAll_skip_tok (fun h => hm h.symm) hct]
      rw [PunctSep, List.chain'_append]
      refine ⟨punctSep_of_all_not_punct (decTok_nopunct m), ih hp.2.1, ?_⟩
      intro x hx y _ hco
      have := decTok_nopunct m x (mem_of_getLast? hx)
      rw [this] at hco
      exact absurd hco.1 (by simp)

/-- The restore loop preserves punctuation separation. -/
theorem punctSep_restore :
    ∀ (ds : List (List Char × List Char)) (lo : Nat) (Z : List Char),
    DsFrom lo ds → Clean lo (lo + ds.length) Z → PunctSep Z →
    PunctSep (restoreDecimals ds Z) := by
  intro ds
  induction ds with
  | nil =>
    intro lo Z _ _ hp
    exact hp
  | cons p ds ih =>
    intro lo Z hds hc hp
    cases hds with
    | cons h1 h2 h3 h4 hds' =>
      rename_i d1 d2
      rw [show restoreDecimals ((decTok lo, d1 ++ '.' :: d2) :: ds) Z =
        restoreDecimals ds (replaceAll Z (decTok lo) (d1 ++ '.' :: d2)) from rfl]
      have hlen : lo + ((decTok lo, d1 ++ '.' :: d2) :: ds).length =
          (lo + 1) + ds.length := by
        simp
        omega
      rw [hlen] at hc
      have hv : ∀ c ∈ d1 ++ '.' :: d2, c ≠ '_' := by
        intro c hc'
        rcases List.mem_append.mp hc' with h | h
        · exact isDigit_ne_underscore (h3 c h)
        · rcases List.mem_cons.mp h with h | h
          · subst h; decide
          · exact isDigit_ne_underscore (h4 c h)
      exact ih (lo + 1) _ hds' (Clean.replace hv hc)
        (punctSep_replace h1 h2 h3 h4 hc hp)

/-! #### A second capture pass over stage output -/

/-- Placeholder-token characters are not keys of the punctuation table. -/
theorem untranslatable_decTok (m : Nat) :
    ∀ c ∈ decTok m, List.lookup c PUNCT_TRANSLATION = none := by
  intro c hc
  rw [decTok] at hc
  simp only [List.mem_cons, List.mem_append] at hc
  rcases hc with h | h | h | h | h | h | h | h | h | h | h
  · subst h; decide
  · subst h; decide
  · subst h; decide
  · subst h; decide
  · subst h; decide
  · subst h; decide
  · subst h; decide
  · subst h; decide
  · subst h; decide
  · subst h; decide
  · rcases h with h | h
    · exact lookup_punct_digit_none (natDigits_all_digit m c h)
    · rcases h with h1 | h1 | h1
      · subst h1; decide
      · subst h1; decide
      · simp at h1

/-- Every character of the protected text comes from the input string or
from one of the generated placeholder tokens. -/
theorem mem_captureFst : ∀ (fuel : Nat) (s : List Char) (n : Nat) (x : Char),
    x ∈ (captureAux fuel s n).1 → x ∈ s ∨ ∃ m, x ∈ decTok m := by
  intro fuel
  induction fuel with
  | zero =>
    intro s n x hx
    cases s with
    | nil => cases hx
    | cons c cs =>
      rw [show captureAux 0 (c :: cs) n = (c :: cs, []) from rfl] at hx
      exact Or.inl hx
  | succ fuel ih =>
    intro s n x hx
    cases s with
    | nil => cases hx
    | cons c cs =>
      by_cases hd : pyDigit c = true
      · rw [captureAux, if_pos hd] at hx
        dsimp only at hx
        revert hx
        split
        · rename_i r2 heq
          intro hx
          by_cases hd2 : (r2.takeWhile pyDigit).isEmpty = true
          · rw [if_pos hd2] at hx
            rcases List.mem_append.mp hx with h | h
            · exact Or.inl ((List.takeWhile_sublist _).mem h)
            · rcases List.mem_cons.mp h with h1 | h1
              · subst h1
                have hm : '.' ∈ (c :: cs).dropWhile pyDigit := by
                  rw [heq]
                  simp
                exact Or.inl ((List.dropWhile_sublist _).mem hm)
              · rcases ih r2 n x h1 with h2 | h2
                · have hm : x ∈ (c :: cs).dropWhile pyDigit := by
                    rw [heq]
                    exact List.mem_cons_of_mem _ h2
                  exact Or.inl ((List.dropWhile_sublist _).mem hm)
                · exact Or.inr h2
          · rw [if_neg hd2] at hx
            rcases List.mem_append.mp hx with h | h
            · exact Or.inr ⟨n, h⟩
            · rcases ih (r2.dropWhile pyDigit) (n + 1) x h with h2 | h2
              · have hm : x ∈ (c :: cs).dropWhile pyDigit := by
                  rw [heq]
                  exact List.mem_cons_of_mem _ ((List.dropWhile_sublist _).mem h2)
                exact Or.inl ((List.dropWhile_sublist _).mem hm)
              · exact Or.inr h2
        · intro hx
          rcases List.mem_append.mp hx with h | h
          · exact Or.inl ((List.takeWhile_sublist _).mem h)
          · rcases ih ((c :: cs).dropWhile pyDigit) n x h with h2 | h2
            · exact Or.inl ((List.dropWhile_sublist _).mem h2)
            · exact Or.inr h2
      · rw [captureAux, if_neg hd] at hx
        rcases List.mem_cons.mp hx with h | h
        · subst h
          exact Or.inl (by simp)
        · rcases ih cs n x h with h2 | h2
          · exact Or.inl (List.mem_cons_of_mem _ h2)
          · exact Or.inr h2

/-- Untranslatability survives the decimal-protection pass. -/
theorem untranslatable_captureFst {s : List Char} (hs : Untranslatable s)
    (fuel n : Nat) : Untranslatable (captureAux fuel s n).1 := by
  intro x hx
  rcases mem_captureFst fuel s n x hx with h | ⟨m, h⟩
  · exact hs x h
  · exact untranslatable_decTok m x h

/-- The translation is the identity on untranslatable strings. -/
theorem pyTranslate_eq_self : ∀ {s : List Char}, Untranslatable s →
    pyTranslate PUNCT_TRANSLATION s = s := by
  intro s
  induction s with
  | nil => intro _; rfl
  | cons c t ih =>
    intro hs
    have hc : translateChar PUNCT_TRANSLATION c = c := by
      unfold translateChar
      rw [hs c (by simp)]
    have ht := ih (fun x hx => hs x (List.mem_cons_of_mem _ hx))
    rw [pyTranslate] at ht ⊢
    rw [List.map_cons, hc, ht]

/-- The protected text starts with the input head or with the underscore
that opens a placeholder token. -/
theorem capture_head : ∀ (fuel : Nat) (s : List Char) (n : Nat),
    ((captureAux fuel s n).1).head? = s.head? ∨
      ((captureAux fuel s n).1).head? = some '_' := by
  intro fuel s n
  cases fuel with
  | zero =>
    cases s with
    | nil => exact Or.inl rfl
    | cons c cs =>
      rw [show captureAux 0 (c :: cs) n = (c :: cs, []) from rfl]
      exact Or.inl rfl
  | succ fuel =>
    cases s with
    | nil => exact Or.inl rfl
    | cons c cs =>
      by_cases hd : pyDigit c = true
      · rw [captureAux, if_pos hd]
        dsimp only
        split
        · rename_i r2 heq
          by_cases hd2 : (r2.takeWhile pyDigit).isEmpty = true
          · rw [if_pos hd2]
            left
            rw [List.takeWhile_cons_of_pos hd]
            rfl
          · rw [if_neg hd2]
            right
            rw [decTok]
            rfl
        · left
          rw [List.takeWhile_cons_of_pos hd]
          rfl
      · rw [captureAux, if_neg hd]
        exact Or.inl rfl

/-- The decimal-protection pass preserves punctuation separation: token
characters are never punctuation, and the characters surrounding a match
were separated in the input. -/
theorem punctSep_captureFst : ∀ (fuel : Nat) (s : List Char) (n : Nat),
    PunctSep s → PunctSep (captureAux fuel s n).1 := by
  intro fuel
  induction fuel with
  | zero =>
    intro s n hp
    cases s with
    | nil => exact List.chain'_nil
    | cons c cs =>
      rw [show captureAux 0 (c :: cs) n = (c :: cs, []) from rfl]
      exact hp
  | succ fuel ih =>
    intro s n hp
    cases s with
    | nil => exact List.chain'_nil
    | cons c cs =>
      by_cases hdg : pyDigit c = true
      · rw [captureAux, if_pos hdg]
        dsimp only
        split
        · rename_i r2 heq
          have hp2 : PunctSep ((c :: cs).takeWhile pyDigit ++ '.' :: r2) := by
            rw [show (c :: cs).takeWhile pyDigit ++ '.' :: r2 = c :: cs from by
              rw [← heq]
              exact List.takeWhile_append_dropWhile pyDigit (c :: cs)]
            exact hp
          rw [PunctSep, List.chain'_append] at hp2
          have hpr2 : PunctSep r2 := (List.chain'_cons'.mp hp2.2.1).2
          have hheadr2 : ∀ b ∈ r2.head?, punctAll b = false := by
            intro b hb
            have hcond := (List.chain'_cons'.mp hp2.2.1).1 b hb
            cases hpb : punctAll b with
            | false => rfl
            | true => exact absurd ⟨by decide, hpb⟩ hcond
          by_cases hd2 : (r2.takeWhile pyDigit).isEmpty = true
          · rw [if_pos hd2]
            rw [PunctSep, List.chain'_append]
            refine ⟨punctSep_of_all_not_punct
              (fun x hx => isDigit_not_punct (List.mem_takeWhile_imp hx)),
              ?_, ?_⟩
            · rw [List.chain'_cons']
              refine ⟨?_, ih r2 n hpr2⟩
              intro b hb hco
              rcases capture_head fuel r2 n with hh | hh
              · rw [hh] at hb
                have := hheadr2 b hb
                rw [this] at hco
                exact absurd hco.2 (by simp)
              · rw [hh] at hb
                simp only [Option.mem_def, Option.some.injEq] at hb
                subst hb
                exact absurd hco.2 (by decide)
            · intro x hx y _ hco
              have := isDigit_not_punct
                (List.mem_takeWhile_imp (mem_of_getLast? hx))
              rw [this] at hco
              exact absurd hco.1 (by simp)
          · rw [if_neg hd2]
            rw [PunctSep, List.chain'_append]
            refine ⟨punctSep_of_all_not_punct (decTok_nopunct n),
              ih _ _ (chain_dropWhile hpr2), ?_⟩
            intro x hx y _ hco
            have := decTok_nopunct n x (mem_of_getLast? hx)
            rw [this] at hco
            exact absurd hco.1 (by simp)
        · have hp2 : PunctSep ((c :: cs).takeWhile pyDigit ++
              (c :: cs).dropWhile pyDigit) := by
            rw [List.takeWhile_append_dropWhile pyDigit (c :: cs)]
            exact hp
          rw [PunctSep, List.chain'_append] at hp2
          rw [PunctSep, List.chain'_append]
          refine ⟨punctSep_of_all_not_punct
            (fun x hx => isDigit_not_punct (List.mem_takeWhile_imp hx)),
            ih _ _ hp2.2.1, ?_⟩
          intro x hx y _ hco
          have := isDigit_not_punct
            (List.mem_takeWhile_imp (mem_of_getLast? hx))
          rw [this] at hco
          exact absurd hco.1 (by simp)
      · rw [captureAux, if_neg hdg]
        rw [PunctSep, List.chain'_cons']
        refine ⟨?_, ih cs n (List.chain'_cons'.mp hp).2⟩
        intro b hb hco
        rcases capture_head fuel cs n with hh | hh
        · rw [hh] at hb
          exact (List.chain'_cons'.mp hp).1 b hb hco
        · rw [hh] at hb
          simp only [Option.mem_def, Option.some.injEq] at hb
          subst hb
          exact absurd hco.2 (by decide)

/-! #### The restore loop inverts the capture pass -/

/-- Unfolding one step of the restore loop. -/
theorem restoreDecimals_cons (t v : List Char)
    (ds : List (List Char × List Char)) (Z : List Char) :
    restoreDecimals ((t, v) :: ds) Z = restoreDecimals ds (replaceAll Z t v) :=
  rfl

/-- Replacing a token whose index is below the protection range is a no-op. -/
theorem replaceAll_notin {lo hi n : Nat} {v : List Char} (hn : n < lo) :
    ∀ {Z : List Char}, Clean lo hi Z → replaceAll Z (decTok n) v = Z := by
  intro Z hc
  induction hc with
  | nil => rfl
  | chr hne hct ih =>
    rename_i c t'
    have hpre : ((decTok n).isPrefixOf (c :: t')) = false := by
      have hb : ('_' == c) = false := by
        simp only [beq_eq_false_iff_ne, ne_eq]
        exact fun h => hne h.symm
      rw [decTok]
      simp [List.isPrefixOf, hb]
    rw [replaceAll_cons_neg (by simp [hpre]), ih]
  | tok hlom hmhi hct ih =>
    rename_i m t'
    have hnm : n ≠ m := by omega
    rw [replaceAll_skip_tok hnm hct, ih]

/-- The restore loop passes over an underscore-free prefix. -/
theorem restore_append_noU :
    ∀ (ds : List (List Char × List Char)) (lo : Nat) (a Z : List Char),
    DsFrom lo ds → Clean lo (lo + ds.length) Z → (∀ c ∈ a, c ≠ '_') →
    restoreDecimals ds (a ++ Z) = a ++ restoreDecimals ds Z := by
  intro ds
  induction ds with
  | nil => intro lo a Z _ _ _; rfl
  | cons p ds ih =>
    intro lo a Z hds hc ha
    cases hds with
    | cons h1 h2 h3 h4 hds' =>
      rename_i d1 d2
      have hhead : (decTok lo).head? = some '_' := by rw [decTok]; rfl
      rw [restoreDecimals_cons, restoreDecimals_cons,
        replaceAll_append_of_head_notMem hhead a Z ha]
      have hv : ∀ c ∈ d1 ++ '.' :: d2, c ≠ '_' := by
        intro c hc'
        rcases List.mem_append.mp hc' with h | h
        · exact isDigit_ne_underscore (h3 c h)
        · rcases List.mem_cons.mp h with h | h
          · subst h; decide
          · exact isDigit_ne_underscore (h4 c h)
      have hlen : lo + ((decTok lo, d1 ++ '.' :: d2) :: ds).length =
          (lo + 1) + ds.length := by
        simp
        omega
      rw [hlen] at hc
      exact ih (lo + 1) a _ hds' (Clean.replace hv hc) ha

/-- Restoring the recorded decimals into the protected text reproduces the
input exactly, for underscore-free inputs. -/
theorem restore_capture : ∀ (fuel : Nat) (s : List Char) (n : Nat),
    (∀ c ∈ s, c ≠ '_') →
    restoreDecimals (captureAux fuel s n).2 (captureAux fuel s n).1 = s := by
  intro fuel
  induction fuel with
  | zero =>
    intro s n hs
    cases s with
    | nil => rfl
    | cons c cs =>
      rw [show captureAux 0 (c :: cs) n = (c :: cs, []) from rfl]
      rfl
  | succ fuel ih =>
    intro s n hs
    cases s with
    | nil => rfl
    | cons c cs =>
      have htake : ∀ x ∈ (c :: cs).takeWhile pyDigit, x ≠ '_' :=
        fun x hx => hs x ((List.takeWhile_sublist _).mem hx)
      have hdropmem : ∀ x ∈ (c :: cs).dropWhile pyDigit, x ≠ '_' :=
        fun x hx => hs x ((List.dropWhile_sublist _).mem hx)
      by_cases hd : pyDigit c = true
      · rw [captureAux, if_pos hd]
        dsimp only
        split
        · rename_i r2 heq
          have hr2 : ∀ x ∈ r2, x ≠ '_' := fun x hx =>
            hdropmem x (by rw [heq]; exact List.mem_cons_of_mem _ hx)
          by_cases hd2 : (r2.takeWhile pyDigit).isEmpty = true
          · rw [if_pos hd2]
            obtain ⟨hcl, hds⟩ := capture_clean fuel r2 n hr2
            have ha : ∀ x ∈ (c :: cs).takeWhile pyDigit ++ ['.'], x ≠ '_' := by
              intro x hx
              rcases List.mem_append.mp hx with h | h
              · exact htake x h
              · rcases List.mem_singleton.mp h with h
                subst h
                decide
            have happ : (c :: cs).takeWhile pyDigit ++ '.' ::
                (captureAux fuel r2 n).1 =
                ((c :: cs).takeWhile pyDigit ++ ['.']) ++
                  (captureAux fuel r2 n).1 := by
              simp
            rw [happ, restore_append_noU _ n _ _ hds hcl ha, ih r2 n hr2,
              List.append_assoc]
            show (c :: cs).takeWhile pyDigit ++ '.' :: r2 = c :: cs
            rw [← heq]
            exact List.takeWhile_append_dropWhile pyDigit (c :: cs)
          · rw [if_neg hd2]
            have hrest : ∀ x ∈ r2.dropWhile pyDigit, x ≠ '_' :=
              fun x hx => hr2 x ((List.dropWhile_sublist _).mem hx)
            obtain ⟨hcl, hds⟩ :=
              capture_clean fuel (r2.dropWhile pyDigit) (n + 1) hrest
            have hv : ∀ x ∈ (c :: cs).takeWhile pyDigit ++ '.' ::
                r2.takeWhile pyDigit, x ≠ '_' := by
              intro x hx
              rcases List.mem_append.mp hx with h | h
              · exact htake x h
              · rcases List.mem_cons.mp h with h1 | h1
                · subst h1; decide
                · exact isDigit_ne_underscore (List.mem_takeWhile_imp h1)
            rw [restoreDecimals_cons, replaceAll_pref (by rw [decTok]; simp),
              replaceAll_notin (Nat.lt_succ_self n) hcl,
              restore_append_noU _ (n + 1) _ _ hds hcl hv,
              ih (r2.dropWhile pyDigit) (n + 1) hrest,
              List.append_assoc, List.cons_append,
              List.takeWhile_append_dropWhile, ← heq]
            exact List.takeWhile_append_dropWhile pyDigit (c :: cs)
        · obtain ⟨hcl, hds⟩ :=
            capture_clean fuel ((c :: cs).dropWhile pyDigit) n hdropmem
          rw [restore_append_noU _ n _ _ hds hcl htake,
            ih ((c :: cs).dropWhile pyDigit) n hdropmem]
          exact List.takeWhile_append_dropWhile pyDigit (c :: cs)
      · rw [captureAux, if_neg hd]
        dsimp only
        have hcs : ∀ x ∈ cs, x ≠ '_' :=
          fun x hx => hs x (List.mem_cons_of_mem _ hx)
        obtain ⟨hcl, hds⟩ := capture_clean fuel cs n hcs
        have ha : ∀ x ∈ [c], x ≠ '_' := by
          intro x hx
          rcases List.mem_singleton.mp hx with h
          rw [h]
          exact hs c (by simp)
        rw [show (c :: (captureAux fuel cs n).1 : List Char) =
          [c] ++ (captureAux fuel cs n).1 from rfl,
          restore_append_noU _ n _ _ hds hcl ha, ih cs n hcs]
        rfl

/-- Values recorded by the capture pass are untranslatable. -/
theorem dsFrom_value_untranslatable :
    ∀ {n : Nat} {ds : List (List Char × List Char)}, DsFrom n ds →
    ∀ q ∈ ds, ∀ c ∈ q.2, List.lookup c PUNCT_TRANSLATION = none := by
  intro n ds hds
  induction hds with
  | nil => intro q hq; cases hq
  | cons h1 h2 h3 h4 hds' ih =>
    intro q hq c hc
    rcases List.mem_cons.mp hq with h | h
    · subst h
      dsimp only at hc
      rcases List.mem_append.mp hc with hm | hm
      · exact lookup_punct_digit_none (h3 c hm)
      · rcases List.mem_cons.mp hm with hm1 | hm1
        · subst hm1; decide
        · exact lookup_punct_digit_none (h4 c hm1)
    · exact ih q h c hc

/-- The whitespace collapse preserves punctuation separation: the kept
character of a whitespace run is a space, which is not punctuation. -/
theorem punctSep_collapseWhitespace : ∀ {l : List Char}, PunctSep l →
    PunctSep (collapseWhitespace l) := by
  intro l
  induction l with
  | nil => intro _; exact List.chain'_nil
  | cons c t ih =>
    intro hp
    cases t with
    | nil =>
      by_cases hsp : pySpace c = true
      · rw [collapseWhitespace, if_pos hsp]
        exact List.chain'_singleton _
      · rw [collapseWhitespace, if_neg hsp]
        exact List.chain'_singleton _
    | cons c2 cs =>
      have hpt : PunctSep (c2 :: cs) := (List.chain'_cons'.mp hp).2
      by_cases hpp : (pySpace c && pySpace c2) = true
      · rw [collapseWhitespace, if_pos hpp]
        exact ih hpt
      · rw [collapseWhitespace, if_neg hpp]
        rw [PunctSep, List.chain'_cons']
        refine ⟨?_, ih hpt⟩
        intro b hb hco
        by_cases hsp2 : pySpace c2 = true
        · rw [collapseWhitespace_head_space hsp2] at hb
          simp only [Option.mem_def, Option.some.injEq] at hb
          subst hb
          exact absurd hco.2 (by decide)
        · have hsp2f : pySpace c2 = false := by
            cases hb2 : pySpace c2 with
            | true => exact absurd hb2 hsp2
            | false => rfl
          rw [collapseWhitespace_head hsp2f] at hb
          simp only [Option.mem_def, Option.some.injEq] at hb
          subst hb
          by_cases hsp : pySpace c = true
          · rw [if_pos hsp] at hco
            exact absurd hco.1 (by decide)
          · rw [if_neg hsp] at hco
            exact (List.chain'_cons'.mp hp).1 c2 rfl hco

/-- On an underscore-free input the punctuation stage is idempotent: a
second pass re-protects exactly the decimals the first pass restored, its
translation and collapse find nothing to rewrite, the restore loop is an
exact inverse of the protection, and the whitespace pass and strip are
already fixed points. -/
theorem punct_applyList_idem (s : List Char) (hs : ∀ c ∈ s, c ≠ '_') :
    PunctuationNormalizer.applyList (PunctuationNormalizer.applyList s) =
      PunctuationNormalizer.applyList s := by
  obtain ⟨hcl, hds⟩ := capture_clean s.length s 0 hs
  have hclc := hcl.translate.collapse
  have hps_r := punctSep_restore (captureAux s.length s 0).2 0
    (collapseRepeats (pyTranslate PUNCT_TRANSLATION (captureAux s.length s 0).1))
    hds (by simpa using hclc) (punctSep_collapseRepeats _)
  have hsymm : ∀ (q : Char → Bool) (a b : Char),
      ¬(q a = true ∧ q b = true) → ¬(q b = true ∧ q a = true) :=
    fun q a b h hc => h ⟨hc.2, hc.1⟩
  have hps_out : PunctSep (PunctuationNormalizer.applyList s) := by
    rw [PunctuationNormalizer.applyList]
    exact chain_pyStrip (hsymm punctAll) (punctSep_collapseWhitespace hps_r)
  have hss_out : SpaceSep (PunctuationNormalizer.applyList s) := by
    rw [PunctuationNormalizer.applyList]
    exact chain_pyStrip (hsymm pySpace) (spaceSep_collapseWhitespace _)
  have hso_out : SpacesOnly (PunctuationNormalizer.applyList s) := by
    intro c hc hsp
    rw [PunctuationNormalizer.applyList] at hc
    exact spacesOnly_collapseWhitespace _ c (mem_pyStrip hc) hsp
  have hnoU := applyList_noU s hs
  have hut_out : Untranslatable (PunctuationNormalizer.applyList s) := by
    intro c hc
    rw [PunctuationNormalizer.applyList] at hc
    rcases mem_collapseWhitespace (mem_pyStrip hc) with h | h
    · rw [h]; decide
    · rcases mem_restoreDecimals _ _ _ h with h2 | ⟨q, hq, hcq⟩
      · exact untranslatable_pyTranslate _ c (mem_collapseRepeats h2)
      · exact dsFrom_value_untranslatable hds q hq c hcq
  have hstrip_out : pyStrip (PunctuationNormalizer.applyList s) =
      PunctuationNormalizer.applyList s := by
    rw [PunctuationNormalizer.applyList]
    exact pyStrip_pyStrip _
  rw [PunctuationNormalizer.applyList, captureDecimals,
    pyTranslate_eq_self (untranslatable_captureFst hut_out _ 0),
    collapseRepeats_eq_self (punctSep_captureFst _ _ 0 hps_out),
    restore_capture _ _ 0 hnoU,
    collapseWhitespace_eq_self hso_out hss_out]
  exact hstrip_out

/-- The `REMAP` translation never produces the labialized glyph `ኋ`:
`ኋ` is itself a key of the table (mapped to `ሀ`) and no value of the table
is `ኋ`. -/
theorem translateChar_remap_ne (c : Char) :
    translateChar CharacterRemapper.REMAP c ≠ 'ኋ' := by
  by_cases hc : c = 'ኋ'
  · subst hc; decide
  · unfold translateChar
    cases h : List.lookup c CharacterRemapper.REMAP with
    | none => exact hc
    | some v =>
      have hv := mem_of_lookup_eq_some h
      have : ∀ p ∈ CharacterRemapper.REMAP, p.2 ≠ 'ኋ' := by decide
      exact this _ hv

/-- Collapsing a maximal punctuation run followed by non-punctuation keeps
exactly the last mark of the run. -/
theorem collapseRepeats_run (r v : List Char) (m : Char)
    (hr : ∀ c ∈ r, punctAll c = true) (hm : r.getLast? = some m)
    (hv : ∀ c, v.head? = some c → punctAll c = false) :
    collapseRepeats (r ++ v) = m :: collapseRepeats v := by
  induction r with
  | nil => simp at hm
  | cons c rs ih =>
    cases rs with
    | nil =>
      simp only [List.getLast?_singleton, Option.some.injEq] at hm
      subst hm
      cases v with
      | nil => simp [collapseRepeats]
      | cons h t =>
        have hh : punctAll h = false := hv h rfl
        simp [collapseRepeats, hh]
    | cons c2 rs' =>
      have h1 : punctAll c = true := hr c (by simp)
      have h2 : punctAll c2 = true := hr c2 (by simp)
      have hm' : (c2 :: rs').getLast? = some m := by
        rwa [List.getLast?_cons_cons] at hm
      have hr' : ∀ x ∈ c2 :: rs', punctAll x = true := fun x hx =>
        hr x (List.mem_cons_of_mem _ hx)
      calc collapseRepeats ((c :: c2 :: rs') ++ v)
          = collapseRepeats (c2 :: (rs' ++ v)) := by
            simp [collapseRepeats, h1, h2]
        _ = m :: collapseRepeats v := by
            have := ih hr' hm'
            simpa using this

/-- `collapseRepeats` distributes over an append whose left part does not
end in a punctuation mark: no run crosses the boundary. -/
theorem collapseRepeats_append (u w : List Char)
    (hu : ∀ c, u.getLast? = some c → punctAll c = false) :
    collapseRepeats (u ++ w) = collapseRepeats u ++ collapseRepeats w := by
  induction u with
  | nil => simp [collapseRepeats]
  | cons a u' ih =>
    cases u' with
    | nil =>
      have ha : punctAll a = false := hu a rfl
      cases w with
      | nil => simp [collapseRepeats]
      | cons h t => simp [collapseRepeats, ha]
    | cons b u'' =>
      have hu' : ∀ c, (b :: u'').getLast? = some c → punctAll c = false := by
        intro c hc
        exact hu c (by rwa [List.getLast?_cons_cons])
      have ihb := ih hu'
      by_cases hab : punctAll a && punctAll b
      · calc collapseRepeats ((a :: b :: u'') ++ w)
            = collapseRepeats ((b :: u'') ++ w) := by
              simp only [List.cons_append]
              rw [collapseRepeats]
              simp [hab]
          _ = collapseRepeats (b :: u'') ++ collapseRepeats w := ihb
          _ = collapseRepeats (a :: b :: u'') ++ collapseRepeats w := by
              rw [collapseRepeats]
              simp [hab]
      · calc collapseRepeats ((a :: b :: u'') ++ w)
            = a :: collapseRepeats ((b :: u'') ++ w) := by
              simp only [List.cons_append]
              rw [collapseRepeats]
              simp [hab]
          _ = a :: (collapseRepeats (b :: u'') ++ collapseRepeats w) := by
              rw [ihb]
          _ = collapseRepeats (a :: b :: u'') ++ collapseRepeats w := by
              rw [collapseRepeats]
              simp [hab]

/-! ### Claim C1 -/

/-- C1, counterexample: the claim predicts that the mixed run `"?!"`
collapses to `"?"` (the first mark); `PunctuationNormalizer.apply` in fact
returns `"!"`, because a Python capturing group under a `{2,}` quantifier
holds its last repetition. -/
theorem claim1_counterexample :
    PunctuationNormalizer.applyText "?!" ≠ "?" ∧
    PunctuationNormalizer.applyText "?!" = "!" := by
  constructor
  · decide
  · decide

/-- C1, amended: when `PunctuationNormalizer.apply` encounters a maximal
run of two or more marks from the combined punctuation set (the run may mix
different marks), the run is replaced by a single occurrence of the LAST
mark in the run — e.g. `"?!"` collapses to `"!"`. -/
theorem claim1_run_collapses_to_last_mark (u r v : List Char) (m : Char)
    (hr : ∀ c ∈ r, punctAll c = true) (hlen : 2 ≤ r.length)
    (hm : r.getLast? = some m)
    (hu : ∀ c, u.getLast? = some c → punctAll c = false)
    (hv : ∀ c, v.head? = some c → punctAll c = false) :
    collapseRepeats (u ++ (r ++ v)) = collapseRepeats u ++ m :: collapseRepeats v := by
  rw [collapseRepeats_append u (r ++ v) hu, collapseRepeats_run r v m hr hm hv]

/-- C1, witness: the amended statement instantiated on the run `"?!"`
embedded in `"a?!b"`. -/
theorem claim1_witness :
    collapseRepeats (['a'] ++ (['?', '!'] ++ ['b'])) =
      collapseRepeats ['a'] ++ '!' :: collapseRepeats ['b'] := by
  apply claim1_run_collapses_to_last_mark ['a'] ['?', '!'] ['b'] '!'
  · decide
  · decide
  · decide
  · intro c hc
    cases hc
    decide
  · intro c hc
    cases hc
    decide

/-! ### Claim C2 -/

/-- C2, counterexample: the claim (and spec §8) expect
`"It costs 8.5% today!"`; the code does not collapse `"%%%"`, because `%`
is not in the `punct_all` class. -/
theorem claim2_counterexample :
    PunctuationNormalizer.applyText "It costs 8.5%%% today!!" ≠
      "It costs 8.5% today!" := by decide

/-- C2, amended: on `"It costs 8.5%%% today!!"` the punctuation stage
returns `"It costs 8.5%%% today!"` — the decimal point of `8.5` is
untouched and `"!!"` collapses to `"!"`, but `%` is not a member of the
collapse set `[?!.,;:።፣፤፥፦፧፨]`, so the repeated `%` survives. -/
theorem claim2_decimal_preserved_percent_not_collapsed :
    PunctuationNormalizer.applyText "It costs 8.5%%% today!!" =
      "It costs 8.5%%% today!" := by decide

/-! ### Claim C3 -/

/-- C3, counterexample: `CharacterRemapper.apply` is not idempotent on text
content.  On `"ሁዋ"` the ligature pass produces `"ኋ"`, but a second
application sends `ኋ` through the substitution table to `"ሀ"`. -/
theorem claim3_counterexample :
    CharacterRemapper.applyText (CharacterRemapper.applyText "ሁዋ") ≠
      CharacterRemapper.applyText "ሁዋ" := by decide

/-- C3, amended: neither the remapper nor the Unicode stage is idempotent
on all inputs, and the punctuation stage is not idempotent on text that
already carries an underscore-built placeholder-shaped token; on every
underscore-free input, however, the punctuation stage *is* idempotent.
A second `CharacterRemapper` pass rewrites the ligature output `ኋ` of
`"ሁዋ"` to `ሀ`; a second `PunctuationNormalizer` pass duplicates content
when the first pass has collapsed `"1..2"` to the decimal `"1.2"` next to a
literal placeholder-shaped token; a second `UnicodeNormalizer` pass
(NFC with `strip_control`) composes `a` with a combining accent once the
first pass has stripped an intervening zero-width joiner. -/
theorem claim3_no_stage_idempotent_in_general :
    (CharacterRemapper.applyText "ሁዋ" = "ኋ" ∧
     CharacterRemapper.applyText "ኋ" = "ሀ") ∧
    (PunctuationNormalizer.applyText "1..2 __DECIMAL_0__" =
        "1.2 __DECIMAL_0__" ∧
     PunctuationNormalizer.applyText "1.2 __DECIMAL_0__" = "1.2 1.2") ∧
    (UnicodeNormalizer.applyTextE { form := "NFC", strip_control := true }
        "a\u200D\u0301" = .ok { text := "a\u0301", unicode_normalized := true } ∧
     UnicodeNormalizer.applyTextE { form := "NFC", strip_control := true }
        "a\u0301" = .ok { text := "\u00E1", unicode_normalized := true } ∧
     ("\u00E1" : String) ≠ "a\u0301") ∧
    (∀ s : String, (∀ c ∈ s.data, c ≠ '_') →
      PunctuationNormalizer.applyText (PunctuationNormalizer.applyText s) =
        PunctuationNormalizer.applyText s) :=
  ⟨⟨by decide, by decide⟩, ⟨by decide, by decide⟩, ⟨rfl, rfl, by decide⟩,
   fun s hs => congrArg String.mk (punct_applyList_idem s.data hs)⟩

/-- C3 witness: the idempotence conjunct of the amended claim applied to
the concrete underscore-free input `"ጤና 12.5!!  ነው?!"`. -/
theorem claim3_witness :
    PunctuationNormalizer.applyText
        (PunctuationNormalizer.applyText "ጤና 12.5!!  ነው?!") =
      PunctuationNormalizer.applyText "ጤና 12.5!!  ነው?!" :=
  claim3_no_stage_idempotent_in_general.2.2.2 "ጤና 12.5!!  ነው?!" (by decide)

/-! ### Claim C4 -/

/-- C4: constructing a `UnicodeNormalizer` with the unsupported form
`"XYZ"` succeeds — `__init__` stores the form without validation — and the
`ValueError` for the invalid form is raised only later, inside `apply`
(by `unicodedata.normalize`).  This contradicts the claim (and spec §4.1 and
§7), which require the failure at construction time. -/
theorem claim4_validation_deferred_to_apply :
    ({ form := "XYZ", strip_control := true } : UnicodeNormalizer).form = "XYZ" ∧
    UnicodeNormalizer.applyTextE { form := "XYZ", strip_control := true } "አማርኛ" =
      .error "invalid normalization form" := ⟨rfl, rfl⟩

/-! ### Claim C5 -/

/-- C5, counterexample: an input that contains a decimal literal and also
carries a literal placeholder-shaped token: the stage restores only the
tokens it generated (`__DECIMAL_0__`), so the pre-existing
`"__DECIMAL_1__"` survives into the output, which therefore matches the
placeholder pattern. -/
theorem claim5_counterexample :
    (captureDecimals ("__DECIMAL_1__ 2.3").data).2 ≠ [] ∧
    PunctuationNormalizer.applyText "__DECIMAL_1__ 2.3" = "__DECIMAL_1__ 2.3" ∧
    hasPlaceholder (PunctuationNormalizer.applyText "__DECIMAL_1__ 2.3").data
      = true := by
  refine ⟨by decide, by decide, by decide⟩

/-- C5, amended: for every input string containing one or more decimal
literals and no underscore character, the text returned by
`PunctuationNormalizer.apply` contains no substring matching the internal
placeholder pattern `__DECIMAL_<n>__`: every placeholder generated by the
decimal protection is fully restored before the stage returns (the
counterexample shows that an input carrying its own underscore-built
placeholder-shaped text can defeat this). -/
theorem claim5_no_placeholder_leak (s : String)
    (hu : ∀ c ∈ s.data, c ≠ '_')
    (hd : (captureDecimals s.data).2 ≠ []) :
    hasPlaceholder (PunctuationNormalizer.applyText s).data = false := by
  cases hp : hasPlaceholder (PunctuationNormalizer.applyText s).data with
  | false => rfl
  | true =>
    have hmem := underscore_mem_of_hasPlaceholder hp
    have hnu := applyList_noU s.data hu
    exact absurd rfl (hnu '_' hmem)

/-- C5, witness: the amended statement instantiated on the spec's own
decimal example, which contains the decimal literal `8.5` and no
underscore. -/
theorem claim5_witness :
    hasPlaceholder (PunctuationNormalizer.applyText "It costs 8.5%%% today!!").data
      = false :=
  claim5_no_placeholder_leak "It costs 8.5%%% today!!" (by decide) (by decide)

/-! ### Claim C6 -/

/-- C6, counterexample: the claim (and spec §8) expect a space to appear
after the comma (`"He said \"hello\", friend."`); the code never inserts
spaces after punctuation (`normalize.py` line 47), so no space separates
`","` from `"friend"`. -/
theorem claim6_counterexample :
    PunctuationNormalizer.applyText "He said “hello”，friend。" ≠
      "He said \"hello\", friend." := by decide

/-- C6, amended: on `"He said “hello”，friend。"` the punctuation stage
returns exactly `"He said \"hello\",friend."` — curly quotes become straight
quotes and the CJK comma and full stop become `","` and `"."` per
`PUNCT_TRANSLATION`, with no space inserted after the comma. -/
theorem claim6_punctuation_unified :
    PunctuationNormalizer.applyText "He said “hello”，friend。" =
      "He said \"hello\",friend." := by decide

/-! ### Claim C7 -/

set_option maxHeartbeats 1000000 in
/-- C7: for every input and every stage, the boolean flag of the returned
record is true exactly when the returned text differs from the extracted
input text by string inequality (the code computes the flag as
`normalized != text`). -/
theorem claim7_changed_flag_iff_text_differs :
    (∀ d : ProcessorInput,
      (PunctuationNormalizer.apply d).punctuation_normalized = true ↔
        (PunctuationNormalizer.apply d).text ≠ extractText d) ∧
    (∀ d : ProcessorInput,
      (CharacterRemapper.apply d).characters_remapped = true ↔
        (CharacterRemapper.apply d).text ≠ extractText d) ∧
    (∀ (u : UnicodeNormalizer) (d : ProcessorInput) (out : UnicodeOutput),
      UnicodeNormalizer.apply u d = .ok out →
        (out.unicode_normalized = true ↔ out.text ≠ extractText d)) := by
  refine ⟨fun d => ?_, fun d => ?_, fun u d out h => ?_⟩
  · simp only [PunctuationNormalizer.apply]
    exact bne_iff_ne
  · simp only [CharacterRemapper.apply]
    exact bne_iff_ne
  · unfold UnicodeNormalizer.apply UnicodeNormalizer.applyTextE at h
    cases hN : (u.applyListE (extractText d).data) with
    | error e => rw [hN] at h; cases h
    | ok n =>
      rw [hN] at h
      cases h
      exact bne_iff_ne

/-- C7, witness: the unicode conjunct instantiated at the default
configuration on the raw input `"abc"`, whose text is unchanged and whose
flag is false. -/
theorem claim7_witness :
    (({ text := "abc", unicode_normalized := false } : UnicodeOutput).unicode_normalized = true ↔
      ({ text := "abc", unicode_normalized := false } : UnicodeOutput).text ≠
        extractText (.raw "abc")) :=
  claim7_changed_flag_iff_text_differs.2.2 { form := "NFC", strip_control := true }
    (.raw "abc") { text := "abc", unicode_normalized := false } rfl

/-! ### Claim C8 -/

/-- C8: with `strip_control` set, every character of the text returned by
`UnicodeNormalizer.apply` has a general category outside group "C" — the
stage filters the normalized text with exactly that predicate. -/
theorem claim8_no_category_c_in_output (form : String) (s : String)
    (out : UnicodeOutput)
    (h : UnicodeNormalizer.applyTextE { form := form, strip_control := true } s = .ok out) :
    out.text.data.all (fun c => !isCategoryC c) = true := by
  unfold UnicodeNormalizer.applyTextE at h
  cases hN : (UnicodeNormalizer.applyListE { form := form, strip_control := true } s.data) with
  | error e => rw [hN] at h; cases h
  | ok n =>
    rw [hN] at h
    cases h
    unfold UnicodeNormalizer.applyListE at hN
    cases hP : pyUnicodedataNormalize form s.data with
    | error e => rw [hP] at hN; cases hN
    | ok raw =>
      rw [hP] at hN
      cases hN
      rw [List.all_eq_true]
      intro x hx
      have hx' : x ∈ raw.filter (fun ch => !isCategoryC ch) := hx
      exact (List.mem_filter.mp hx').2

/-- C8, witness: the statement instantiated on `"a\x07b"` under NFC — the
BEL control character is stripped and the surviving characters are clear of
category "C". -/
theorem claim8_witness :
    (("ab" : String)).data.all (fun c => !isCategoryC c) = true :=
  claim8_no_category_c_in_output "NFC" "a\x07b"
    { text := "ab", unicode_normalized := true } rfl

/-! ### Claim C9 -/

/-- C9: the substitution table maps `ኋ` to `ሀ` while the ligature rule
rewrites `ሁዋ` to `ኋ`; the table pass eliminates every `ኋ` (no table value
is `ኋ` and `ኋ` itself is a key), so remapping `ሁዋ` yields `ኋ` and applying
the stage to that output yields `ሀ`, not `ኋ`. -/
theorem claim9_remap_table_undoes_ligature :
    List.lookup 'ኋ' CharacterRemapper.REMAP = some 'ሀ' ∧
    (∀ s : List Char, 'ኋ' ∉ pyTranslate CharacterRemapper.REMAP s) ∧
    CharacterRemapper.applyText "ሁዋ" = "ኋ" ∧
    CharacterRemapper.applyText (CharacterRemapper.applyText "ሁዋ") = "ሀ" := by
  refine ⟨by decide, fun s hmem => ?_, by decide, by decide⟩
  obtain ⟨c, -, hc⟩ := List.mem_map.mp hmem
  exact translateChar_remap_ne c hc

/-! ### Claim C10 -/

/-- C10: every ligature rule of `CharacterRemapper` fires on both
vowel-trigger glyphs: for each of the 20 (base, labialized) pairs of
`LIG_RULES`, the base glyph followed by `ዋ` and the base glyph followed by
`አ` both contract to the same single labialized glyph. -/
theorem claim10_ligature_rules_fire_on_both_triggers :
    ∀ p ∈ CharacterRemapper.LIG_RULES,
      CharacterRemapper.applyText ⟨[p.1, 'ዋ']⟩ = ⟨[p.2]⟩ ∧
      CharacterRemapper.applyText ⟨[p.1, 'አ']⟩ = ⟨[p.2]⟩ := by decide

/-- C10, witness: the rule for `ቱ` instantiated — both `"ቱዋ"` and `"ቱአ"`
become `"ቷ"`. -/
theorem claim10_witness :
    CharacterRemapper.applyText ⟨['ቱ', 'ዋ']⟩ = ⟨['ቷ']⟩ ∧
    CharacterRemapper.applyText ⟨['ቱ', 'አ']⟩ = ⟨['ቷ']⟩ :=
  claim10_ligature_rules_fire_on_both_triggers ('ቱ', 'ቷ') (by decide)

end AmharicTextProcessor
